import Mathlib

/-!
Shallow embedding of the anti-delete message archive of `src/antidelete.js`
(message key derivation, wrapped-content resolution, the triple-indexed
TTL/capacity-bounded `MessageCache`, and the revoke-handling dispatcher),
together with theorems settling the specification claims about it.

JavaScript `Map`s are embedded as association lists with unique keys
(`List (String × Rec)`); object identity of cached records is embedded as a
`seq` serial number stamped from a counter at insertion time (every `add` in
the source allocates a fresh record object, so two records are the same JS
object precisely when they come from the same insertion).  `Date.now()` is an
explicit `now : Nat` argument at every call that reads the clock.
-/

namespace AntiDelete

/-- JavaScript `a || b` on possibly-absent strings: an absent or empty string
is falsy and falls through to `b`. -/
def jsOr (a b : Option String) : Option String :=
  match a with
  | some s => if s = "" then b else some s
  | none => b

/-- JavaScript `x || ''`: an absent or empty string becomes `''`. -/
def orEmpty (a : Option String) : String :=
  match a with
  | some s => s
  | none => ""

/-- The addressing triple of a Baileys message key object
(`remoteJid`, `id`, `participant`), each field possibly absent. -/
structure WKey where
  remoteJid : Option String
  id : Option String
  participant : Option String
deriving DecidableEq

/-- The three derived key strings built by `makeKeys`. -/
structure Keys where
  strict : String
  loose : String
  idOnly : String
deriving DecidableEq

/-- Embeds `makeKeys(key)`: absent fields default to `''` and the three
progressively less specific key strings are concatenated with `|`. -/
def makeKeys (key : Option WKey) : Keys :=
  let jid := orEmpty (key.bind (·.remoteJid))
  let id := orEmpty (key.bind (·.id))
  let participant := orEmpty (key.bind (·.participant))
  { strict := jid ++ "|" ++ id ++ "|" ++ participant
    loose := jid ++ "|" ++ id
    idOnly := id }

/-- Abbreviation for the strict key string of a present key object. -/
def strictOf (k : WKey) : String := (makeKeys (some k)).strict

/-- Abbreviation for the loose key string of a present key object. -/
def looseOf (k : WKey) : String := (makeKeys (some k)).loose

/-- Abbreviation for the id-only key string of a present key object. -/
def idOf (k : WKey) : String := (makeKeys (some k)).idOnly

/-- Body of an `extendedTextMessage` content node (only the `text` field is
read by the source). -/
structure ExtendedText where
  text : Option String
deriving DecidableEq

/-- An `imageMessage`/`videoMessage` content node; the source only reads its
`caption` field (the raw media reference stays inside the opaque envelope and
is re-downloaded through the host primitive). -/
structure MediaCap where
  caption : Option String
deriving DecidableEq

/-- A `protocolMessage` node: `type === 0` marks a revoke, `key` addresses the
revoked message. -/
structure ProtoMsg where
  type : Option Nat
  key : Option WKey
deriving DecidableEq

/-- A message payload object with the optional fields the source probes.  A
wrapper field holds `some inner` when the wrapper object is present, where
`inner : Option Message` is its own possibly-absent `message` field. -/
inductive Message where
  | mk (ephemeralMessage : Option (Option Message))
       (viewOnceMessage : Option (Option Message))
       (viewOnceMessageV2 : Option (Option Message))
       (viewOnceMessageV2Extension : Option (Option Message))
       (conversation : Option String)
       (extendedTextMessage : Option ExtendedText)
       (imageMessage : Option MediaCap)
       (videoMessage : Option MediaCap)
       (stickerMessage : Option Unit)
       (audioMessage : Option Unit)
       (documentMessage : Option Unit)
       (liveLocationMessage : Option Unit)
       (locationMessage : Option Unit)
       (protocolMessage : Option ProtoMsg)

/-- Field accessor for the `protocolMessage` field. -/
def Message.protocolMessage : Message → Option ProtoMsg
  | .mk _ _ _ _ _ _ _ _ _ _ _ _ _ pm => pm

/-- Models the external Baileys helper `getContentType`, which returns the
name of the populated content field of a message object. -/
def getContentType (m : Message) : Option String :=
  match m with
  | .mk eph vo v2 v2e conv ext img vid stk aud doc lloc loc pm =>
    if eph.isSome then some "ephemeralMessage"
    else if vo.isSome then some "viewOnceMessage"
    else if v2.isSome then some "viewOnceMessageV2"
    else if v2e.isSome then some "viewOnceMessageV2Extension"
    else if conv.isSome then some "conversation"
    else if ext.isSome then some "extendedTextMessage"
    else if img.isSome then some "imageMessage"
    else if vid.isSome then some "videoMessage"
    else if stk.isSome then some "stickerMessage"
    else if aud.isSome then some "audioMessage"
    else if doc.isSome then some "documentMessage"
    else if lloc.isSome then some "liveLocationMessage"
    else if loc.isSome then some "locationMessage"
    else if pm.isSome then some "protocolMessage"
    else none

/-- Embeds `resolveContentNode(message)` on a present message object: probes
the four wrapper fields in source order and recurses into the wrapper's own
(possibly absent) `message` field; a non-wrapper node is returned together
with its content type. -/
def resolveNode : Message → Option Message × Option String
  | .mk (some w) _ _ _ _ _ _ _ _ _ _ _ _ _ =>
    match w with
    | none => (none, none)
    | some inner => resolveNode inner
  | .mk none (some w) _ _ _ _ _ _ _ _ _ _ _ _ =>
    match w with
    | none => (none, none)
    | some inner => resolveNode inner
  | .mk none none (some w) _ _ _ _ _ _ _ _ _ _ _ =>
    match w with
    | none => (none, none)
    | some inner => resolveNode inner
  | .mk none none none (some w) _ _ _ _ _ _ _ _ _ _ =>
    match w with
    | none => (none, none)
    | some inner => resolveNode inner
  | m => (some m, getContentType m)

/-- Embeds `resolveContentNode(message)` including the falsy guard on an
absent argument. -/
def resolveContentNode (message : Option Message) : Option Message × Option String :=
  match message with
  | none => (none, none)
  | some m => resolveNode m

/-- Embeds `extractText(containerMessage)`: resolves the content node and
returns, in source order, a truthy `conversation` body, a truthy
`extendedTextMessage.text`, a truthy image caption, a truthy video caption,
else the empty string. -/
def extractText (containerMessage : Option Message) : String :=
  match (resolveContentNode containerMessage).1 with
  | none => ""
  | some (.mk _ _ _ _ conv ext img vid _ _ _ _ _ _) =>
    match jsOr conv none with
    | some c => c
    | none =>
      match jsOr (ext.bind (·.text)) none with
      | some t => t
      | none =>
        match jsOr (img.bind (·.caption)) none with
        | some c => c
        | none =>
          match jsOr (vid.bind (·.caption)) none with
          | some c => c
          | none => ""

/-- The media kind classification of `detectMediaKind`. -/
inductive MediaKind where
  | image | video | sticker | audio | document | location
deriving DecidableEq

/-- Embeds `detectMediaKind(containerMessage)`: resolves the content node and
probes the media fields in source order, `null` for text-only content. -/
def detectMediaKind (containerMessage : Option Message) : Option MediaKind :=
  match (resolveContentNode containerMessage).1 with
  | none => none
  | some (.mk _ _ _ _ _ _ img vid stk aud doc lloc loc _) =>
    if img.isSome then some .image
    else if vid.isSome then some .video
    else if stk.isSome then some .sticker
    else if aud.isSome then some .audio
    else if doc.isSome then some .document
    else if lloc.isSome || loc.isSome then some .location
    else none

/-- A Baileys `WebMessageInfo` as probed by the source: the addressing `key`
and the (possibly absent) `message` payload.  Cached verbatim as the record's
container. -/
structure Container where
  key : Option WKey
  message : Option Message

/-- Embeds a cached record object `{ at: Date.now(), container, authorJid }`.
The extra `seq` field is the embedding of JS object identity: every `add`
allocates a fresh record object, embedded as a fresh serial number. -/
structure Rec where
  at_ : Nat
  seq : Nat
  container : Container
  authorJid : Option String

/-- Embeds `DEFAULT_TTL_MS = 24 * 60 * 60 * 1000`. -/
def DEFAULT_TTL_MS : Nat := 24 * 60 * 60 * 1000

/-- Embeds `MAX_CACHE = 5000`. -/
def MAX_CACHE : Nat := 5000

/-- Embeds `Math.ceil(MAX_CACHE * 0.3)`, which evaluates to `1500`. -/
def EVICT_COUNT : Nat := 1500

/-- Embeds `Map.prototype.get`: the value stored under `k`, if any. -/
def mapGet (m : List (String × Rec)) (k : String) : Option Rec :=
  match m.find? (fun p => p.1 == k) with
  | some p => some p.2
  | none => none

/-- Embeds `Map.prototype.set`: replaces the value in place when the key is
present (JS `Map` keeps the original insertion position), appends otherwise. -/
def mapSet (m : List (String × Rec)) (k : String) (v : Rec) : List (String × Rec) :=
  if m.any (fun p => p.1 == k) then
    m.map (fun p => if p.1 == k then (k, v) else p)
  else
    m ++ [(k, v)]

/-- Embeds `Map.prototype.delete` (on maps with unique keys): drops the entry
stored under `k`. -/
def mapDelete (m : List (String × Rec)) (k : String) : List (String × Rec) :=
  m.filter (fun p => p.1 != k)

/-- One insertion step of the comparison-sorted eviction array: places `e`
before the first entry with a strictly larger timestamp (a stable sort, as
`Array.prototype.sort` is). -/
def sortedInsert (e : String × Rec) : List (String × Rec) → List (String × Rec)
  | [] => [e]
  | x :: xs => if e.2.at_ ≤ x.2.at_ then e :: x :: xs else x :: sortedInsert e xs

/-- Embeds `arr.sort((a, b) => a.t - b.t)` in `evictOldest`: a stable sort of
the entries by ascending record timestamp. -/
def sortByAt (l : List (String × Rec)) : List (String × Rec) :=
  l.foldr sortedInsert []

/-- The triple-indexed cache `MessageCache` (its `_interval` sweep timer is an
external scheduling concern; the sweep body is `cleanup` below). -/
structure MessageCache where
  ttlMs : Nat
  strictMap : List (String × Rec)
  looseMap : List (String × Rec)
  idMap : List (String × Rec)
  nextSeq : Nat

/-- The cache state built by `new MessageCache(ttlMs)`. -/
def emptyCache (ttlMs : Nat) : MessageCache :=
  { ttlMs := ttlMs, strictMap := [], looseMap := [], idMap := [], nextSeq := 0 }

/-- Total number of index entries, `strictMap.size + looseMap.size +
idMap.size`, as summed at the top of `add`. -/
def MessageCache.totalEntries (c : MessageCache) : Nat :=
  c.strictMap.length + c.looseMap.length + c.idMap.length

/-- One loop iteration of `evictOldest`: removes every index entry whose
record is the victim object (object identity, embedded by `seq`). -/
def removeRecEverywhere (c : MessageCache) (s : Nat) : MessageCache :=
  { c with
    strictMap := c.strictMap.filter (fun p => p.2.seq != s)
    looseMap := c.looseMap.filter (fun p => p.2.seq != s)
    idMap := c.idMap.filter (fun p => p.2.seq != s) }

/-- Embeds `evictOldest(count)`: sorts the strict-index entries by record
timestamp and removes the first `min(count, length)` records from all three
indexes. -/
def MessageCache.evictOldest (c : MessageCache) (count : Nat) : MessageCache :=
  let victims := (sortByAt c.strictMap).take count
  victims.foldl (fun acc e => removeRecEverywhere acc e.2.seq) c

/-- Embeds `add(key, container, authorJid)` with `Date.now()` passed as
`now`: derives the three keys, runs the soft-cap eviction when the summed
index size exceeds `MAX_CACHE * 3`, then installs a fresh record under the
strict and loose keys and, when the id is truthy, the id-only key. -/
def MessageCache.add (c : MessageCache) (now : Nat) (key : Option WKey)
    (container : Container) (authorJid : Option String) : MessageCache :=
  let ks := makeKeys key
  let c := if c.totalEntries > MAX_CACHE * 3 then c.evictOldest EVICT_COUNT else c
  let r : Rec := { at_ := now, seq := c.nextSeq, container := container, authorJid := authorJid }
  { c with
    strictMap := mapSet c.strictMap ks.strict r
    looseMap := mapSet c.looseMap ks.loose r
    idMap := if ks.idOnly ≠ "" then mapSet c.idMap ks.idOnly r else c.idMap
    nextSeq := c.nextSeq + 1 }

/-- Embeds `getByRevokedKey(key)` with `Date.now()` passed as `now`: tries the
strict, loose, then (when the id is truthy) id-only key; on a hit older than
the TTL it deletes the three lookup-derived keys and misses.  Returns the
looked-up record together with the possibly mutated cache. -/
def MessageCache.getByRevokedKey (c : MessageCache) (now : Nat) (key : Option WKey) :
    Option Rec × MessageCache :=
  let ks := makeKeys key
  let r0 := mapGet c.strictMap ks.strict
  let r1 := match r0 with
    | some r => some r
    | none => mapGet c.looseMap ks.loose
  let r2 := match r1 with
    | some r => some r
    | none => if ks.idOnly ≠ "" then mapGet c.idMap ks.idOnly else none
  match r2 with
  | none => (none, c)
  | some r =>
    if now - r.at_ > c.ttlMs then
      (none,
        { c with
          strictMap := mapDelete c.strictMap ks.strict
          looseMap := mapDelete c.looseMap ks.loose
          idMap := if ks.idOnly ≠ "" then mapDelete c.idMap ks.idOnly else c.idMap })
    else (some r, c)

/-- Embeds the periodic `cleanup()` sweep body at clock value `now`: every
index drops the entries whose record age exceeds the TTL. -/
def MessageCache.cleanup (c : MessageCache) (now : Nat) : MessageCache :=
  { c with
    strictMap := c.strictMap.filter (fun p => !(now - p.2.at_ > c.ttlMs))
    looseMap := c.looseMap.filter (fun p => !(now - p.2.at_ > c.ttlMs))
    idMap := c.idMap.filter (fun p => !(now - p.2.at_ > c.ttlMs)) }

/-- Embeds `clear()`: empties all three indexes. -/
def MessageCache.clear (c : MessageCache) : MessageCache :=
  { c with strictMap := [], looseMap := [], idMap := [] }

/-- An outbound content object as built by the dispatcher. -/
inductive OutContent where
  | text (s : String)
  | image (data : List Nat) (caption : String)
  | video (data : List Nat) (caption : String)
  | sticker (data : List Nat)
  | audio (data : List Nat)
  | document (data : List Nat)
deriving DecidableEq

/-- Whether an outbound content object carries media bytes. -/
def OutContent.isMedia : OutContent → Bool
  | .text _ => false
  | _ => true

/-- Embeds `buildOutgoingContent(kind, buffer, caption)`. -/
def buildOutgoingContent (kind : MediaKind) (buffer : List Nat) (caption : String) : OutContent :=
  match kind with
  | .image => .image buffer caption
  | .video => .video buffer caption
  | .sticker => .sticker buffer
  | .audio => .audio buffer
  | .document => .document buffer
  | .location => .text (if caption = "" then "(location message)" else caption)

/-- Embeds `buildNoticeText(deleterJid, chatId, customBuilder)`;
`new Date().toLocaleString()` is passed in as `timeStr`. -/
def buildNoticeText (timeStr deleterJid chatId : String)
    (customBuilder : Option (String → String → String)) : String :=
  match customBuilder with
  | some f => f deleterJid chatId
  | none =>
    "🧩 Anti-Delete (Global)\n• Chat: " ++ chatId ++ "\n• Deleted by: " ++
      (deleterJid.splitOn "@").headD "" ++ "\n• Time: " ++ timeStr

/-- Which send primitive a `safeSend` attempt went through. -/
inductive AttemptKind where
  | primary
  | bare
deriving DecidableEq

/-- One attempted outbound send inside `safeSend`. -/
structure Attempt where
  kind : AttemptKind
  jid : String
  content : OutContent
deriving DecidableEq

/-- A send primitive that may fail (`sendWithChannel` / `sock.sendMessage`):
the error branch embeds a thrown exception. -/
def SendFn : Type := String → OutContent → Except String Unit

/-- Embeds `safeSend(sendWithChannel, sock, jid, content)` as its attempt log:
the primary send, followed by the bare fallback only when the primary throws.
The return type has no exception component — both failures are swallowed. -/
def safeSend (channel bare : SendFn) (jid : String) (content : OutContent) : List Attempt :=
  match channel jid content with
  | .ok _ => [⟨.primary, jid, content⟩]
  | .error _ =>
    match bare jid content with
    | .ok _ => [⟨.primary, jid, content⟩, ⟨.bare, jid, content⟩]
    | .error _ => [⟨.primary, jid, content⟩, ⟨.bare, jid, content⟩]

/-- The host-supplied environment of `attachAntiDelete`: the two send
primitives, the media download primitive (whose error branch embeds a thrown
exception), the wall-clock string used by the default notice template, and the
optional `options.notifyText` custom formatter. -/
structure Env where
  channel : SendFn
  bare : SendFn
  download : Container → Except String (List Nat)
  timeStr : String
  notifyText : Option (String → String → String)

/-- The mutable closure state of `attachAntiDelete`: the feature flag, the
forward target, and the cache. -/
structure ADState where
  enabled : Bool
  forwardToJid : Option String
  cache : MessageCache

/-- The closure state right after `attachAntiDelete(sock, send, options)`. -/
def attachState (ttlMs : Nat) (forward : Option String) : ADState :=
  { enabled := true, forwardToJid := jsOr forward none, cache := emptyCache ttlMs }

/-- Embeds the returned `enable()` closure. -/
def ADState.enable (st : ADState) : ADState := { st with enabled := true }

/-- Embeds the returned `disable()` closure. -/
def ADState.disable (st : ADState) : ADState := { st with enabled := false }

/-- Embeds the returned `setForwardToJid(jid)` closure (`jid || null`). -/
def ADState.setForwardToJid (st : ADState) (jid : Option String) : ADState :=
  { st with forwardToJid := jsOr jid none }

/-- One logical outbound send, i.e. one `safeSend` call of the dispatcher:
target jid and content. -/
structure Send where
  jid : String
  content : OutContent
deriving DecidableEq

/-- Embeds `handleRevoke(revokedKey, revokerJid)` at clock value `now`:
returns the updated closure state together with the list of `safeSend` calls
it performs, in order. -/
def handleRevoke (env : Env) (st : ADState) (now : Nat)
    (revokedKey : Option WKey) (revokerJid : Option String) : ADState × List Send :=
  if !st.enabled then (st, [])
  else match revokedKey with
  | none => (st, [])
  | some rk =>
    match jsOr rk.remoteJid none with
    | none => (st, [])
    | some chatId =>
      let deleterJid := orEmpty (jsOr revokerJid (jsOr rk.participant rk.remoteJid))
      let res := st.cache.getByRevokedKey now revokedKey
      let st' := { st with cache := res.2 }
      let targetJid := match jsOr st.forwardToJid none with
        | some f => f
        | none => chatId
      let notice := buildNoticeText env.timeStr deleterJid chatId env.notifyText
      match res.1 with
      | none => (st', [⟨targetJid, .text (notice ++ "\n(Couldn't restore content)")⟩])
      | some r =>
        let caption := extractText r.container.message
        match detectMediaKind r.container.message with
        | none =>
          (st', [⟨targetJid,
            .text (notice ++ "\n\n" ++ (if caption = "" then "(no text content)" else caption))⟩])
        | some kind =>
          match env.download r.container with
          | .ok buffer =>
            (st', [⟨targetJid, .text notice⟩,
                   ⟨targetJid, buildOutgoingContent kind buffer caption⟩])
          | .error _ =>
            (st', [⟨targetJid, .text (notice ++ "\n(Media could not be restored)")⟩])

/-- Whether an observed message is itself a revoke notification:
`pm && pm.type === 0 && pm.key`. -/
def isRevoke (m : Container) : Bool :=
  match m.message with
  | none => false
  | some msg =>
    match msg.protocolMessage with
    | none => false
    | some pm => pm.type == some 0 && pm.key.isSome

/-- Embeds one loop iteration of the `messages.upsert` handler on message `m`:
a revoke notification is routed to `handleRevoke` with the reporting identity
as revoker; otherwise, when the feature is enabled and a payload is present,
the message is cached with `m.key?.participant || m.key?.remoteJid` as
author. -/
def onUpsertOne (env : Env) (st : ADState) (now : Nat) (m : Container) : ADState × List Send :=
  match m.message with
  | some msg =>
    match msg.protocolMessage with
    | some pm =>
      if pm.type == some 0 && pm.key.isSome then
        let revokerJid := jsOr (m.key.bind (·.participant)) (jsOr (m.key.bind (·.remoteJid)) none)
        handleRevoke env st now pm.key revokerJid
      else if !st.enabled then (st, [])
      else
        let author := jsOr (m.key.bind (·.participant)) (m.key.bind (·.remoteJid))
        ({ st with cache := st.cache.add now m.key m author }, [])
    | none =>
      if !st.enabled then (st, [])
      else
        let author := jsOr (m.key.bind (·.participant)) (m.key.bind (·.remoteJid))
        ({ st with cache := st.cache.add now m.key m author }, [])
  | none => (st, [])

/-- Embeds the full `messages.upsert` handler over a batch. -/
def onUpsert (env : Env) (st : ADState) (now : Nat) (messages : List Container) :
    ADState × List Send :=
  messages.foldl
    (fun acc m =>
      let step := onUpsertOne env acc.1 now m
      (step.1, acc.2 ++ step.2))
    (st, [])

/-! ### Verification layer: canonical cache states

A reachable cache state is described by one underlying list `L` of
(insertion key, record) pairs, mirrored in parallel into the three indexes.
`GoodList` collects the facts that hold of the states the claims quantify
over: the derived keys are pairwise distinct across insertions (distinct
records), ids are truthy, record serial numbers are fresh and distinct, and
timestamps are nondecreasing in insertion order. -/

/-- The index map obtained by keying each underlying entry with `f`. -/
def keyed (f : WKey → String) (L : List (WKey × Rec)) : List (String × Rec) :=
  L.map (fun e => (f e.1, e.2))

/-- The cache state whose three indexes mirror the underlying entry list
`L`. -/
def cacheOf (ttl : Nat) (L : List (WKey × Rec)) (nseq : Nat) : MessageCache :=
  { ttlMs := ttl
    strictMap := keyed strictOf L
    looseMap := keyed looseOf L
    idMap := keyed idOf L
    nextSeq := nseq }

/-- Well-formedness of an underlying entry list: pairwise-distinct derived
keys, truthy ids, distinct record serial numbers below the allocation
counter, and nondecreasing insertion timestamps. -/
structure GoodList (L : List (WKey × Rec)) (nseq : Nat) : Prop where
  strictDistinct : (L.map (fun e => strictOf e.1)).Pairwise (· ≠ ·)
  looseDistinct : (L.map (fun e => looseOf e.1)).Pairwise (· ≠ ·)
  idDistinct : (L.map (fun e => idOf e.1)).Pairwise (· ≠ ·)
  idNonempty : ∀ e ∈ L, idOf e.1 ≠ ""
  seqDistinct : (L.map (fun e => e.2.seq)).Pairwise (· ≠ ·)
  seqLt : ∀ e ∈ L, e.2.seq < nseq
  atMono : (L.map (fun e => e.2.at_)).Pairwise (· ≤ ·)

/-- One insertion of a message into the cache, as observed by `onUpsert`:
clock value, addressing key, verbatim container, author string. -/
structure InsertItem where
  now : Nat
  key : WKey
  container : Container
  author : Option String

/-- The cache state after running `add` for each item in order, starting from
a fresh `MessageCache`. -/
def addAll (ttl : Nat) (items : List InsertItem) : MessageCache :=
  items.foldl (fun c it => c.add it.now (some it.key) it.container it.author) (emptyCache ttl)

/-- The underlying entry list that a sequence of inserts would build with no
eviction, with serial numbers starting at `i`. -/
def entriesOf : List InsertItem → Nat → List (WKey × Rec)
  | [], _ => []
  | it :: rest, i => (it.key, ⟨it.now, i, it.container, it.author⟩) :: entriesOf rest (i + 1)

/-! ### Concrete inputs used by counterexamples and witnesses -/

/-- A container with no addressing key and no payload. -/
def noMsg : Container := ⟨none, none⟩

/-- A plain text message whose `conversation` field holds `s`. -/
def convMsg (s : String) : Message :=
  .mk none none none none (some s) none none none none none none none none none

/-- An image message with caption `s`. -/
def imgMsg (s : String) : Message :=
  .mk none none none none none none (some ⟨some s⟩) none none none none none none none

/-- The payload of `nestE n`: a `conversation` node wrapped in `n` nested
`ephemeralMessage` layers. -/
def nestE : Nat → Message
  | 0 => convMsg "hi"
  | n + 1 => .mk (some (some (nestE n))) none none none none none none none none none none none none none

/-- A message id of length `i + 1` (distinct ids for distinct `i`, witnessed
by their lengths). -/
def natId (i : Nat) : String := String.mk (List.replicate (i + 1) 'a')

/-- The addressing key of the `i`-th record of the over-capacity state. -/
def bigKey (i : Nat) : WKey := ⟨some "c", some (natId i), some ""⟩

/-- The `i`-th underlying entry of the over-capacity state: inserted at time
`i` with serial number `i`. -/
def bigEntry (i : Nat) : WKey × Rec := (bigKey i, ⟨i, i, noMsg, none⟩)

/-- The underlying entry list of a reachable over-capacity state:
`MAX_CACHE + 1` distinct records, `3 × MAX_CACHE + 3` index entries. -/
def bigL : List (WKey × Rec) := (List.range' 0 (MAX_CACHE + 1)).map bigEntry

/-- A cache state holding `MAX_CACHE + 1` distinct records, one over the
soft-capacity trigger. -/
def bigCache : MessageCache := cacheOf DEFAULT_TTL_MS bigL (MAX_CACHE + 1)

/-! ### Association-list map lemmas -/

theorem keyed_nil (f : WKey → String) : keyed f [] = [] := rfl

theorem keyed_cons (f : WKey → String) (e : WKey × Rec) (L : List (WKey × Rec)) :
    keyed f (e :: L) = (f e.1, e.2) :: keyed f L := rfl

theorem keyed_append (f : WKey → String) (L M : List (WKey × Rec)) :
    keyed f (L ++ M) = keyed f L ++ keyed f M := by
  simp [keyed]

theorem length_keyed (f : WKey → String) (L : List (WKey × Rec)) :
    (keyed f L).length = L.length := by
  simp [keyed]

theorem keyed_take (f : WKey → String) (L : List (WKey × Rec)) (n : Nat) :
    keyed f (L.take n) = (keyed f L).take n := by
  simp [keyed, List.map_take]

theorem keyed_drop (f : WKey → String) (L : List (WKey × Rec)) (n : Nat) :
    keyed f (L.drop n) = (keyed f L).drop n := by
  simp [keyed, List.map_drop]

theorem mapGet_cons (p : String × Rec) (m : List (String × Rec)) (k : String) :
    mapGet (p :: m) k = if p.1 = k then some p.2 else mapGet m k := by
  by_cases h : p.1 = k <;> simp [mapGet, List.find?_cons, h]

theorem mapGet_keyed_eq_none (f : WKey → String) (L : List (WKey × Rec)) (k : String)
    (h : ∀ e ∈ L, f e.1 ≠ k) : mapGet (keyed f L) k = none := by
  induction L with
  | nil => rfl
  | cons e L ih =>
    rw [keyed_cons, mapGet_cons, if_neg (h e (List.mem_cons_self e L))]
    exact ih fun x hx => h x (List.mem_cons_of_mem e hx)

theorem mapGet_keyed_eq_some (f : WKey → String) (L : List (WKey × Rec)) (e : WKey × Rec)
    (he : e ∈ L) (huniq : ∀ x ∈ L, f x.1 = f e.1 → x = e) :
    mapGet (keyed f L) (f e.1) = some e.2 := by
  induction L with
  | nil => cases he
  | cons y L ih =>
    rw [keyed_cons, mapGet_cons]
    by_cases hy : f y.1 = f e.1
    · rw [if_pos hy, huniq y (List.mem_cons_self y L) hy]
    · rw [if_neg hy]
      have he' : e ∈ L := by
        rcases List.mem_cons.mp he with h | h
        · subst h
          exact absurd rfl hy
        · exact h
      exact ih he' fun x hx hfx => huniq x (List.mem_cons_of_mem y hx) hfx

theorem mapSet_append_of_fresh (m : List (String × Rec)) (k : String) (v : Rec)
    (h : ∀ p ∈ m, p.1 ≠ k) : mapSet m k v = m ++ [(k, v)] := by
  unfold mapSet
  rw [if_neg]
  simp only [List.any_eq_true, beq_iff_eq, not_exists, not_and]
  intro p hp hpk
  exact h p hp hpk

theorem mapSet_keyed_fresh (f : WKey → String) (L : List (WKey × Rec)) (k : String) (v : Rec)
    (h : ∀ e ∈ L, f e.1 ≠ k) : mapSet (keyed f L) k v = keyed f L ++ [(k, v)] := by
  refine mapSet_append_of_fresh _ _ _ ?_
  intro p hp
  rcases List.mem_map.mp hp with ⟨e, heL, rfl⟩
  exact h e heL

theorem mapGet_mapSet_self (m : List (String × Rec)) (k : String) (v : Rec) :
    mapGet (mapSet m k v) k = some v := by
  induction m with
  | nil => simp [mapSet, mapGet_cons]
  | cons p m ih =>
    by_cases hp : p.1 = k
    · have hany : ((p :: m).any fun q => q.1 == k) = true := by
        simp [List.any_cons, hp]
      have hb : (p.1 == k) = true := by simp [hp]
      simp only [mapSet]
      rw [if_pos hany, List.map_cons, if_pos hb, mapGet_cons]
      simp
    · by_cases hm : (m.any fun q => q.1 == k) = true
      · have hany : ((p :: m).any fun q => q.1 == k) = true := by
          simp [List.any_cons, hm]
        have hb : ¬ ((p.1 == k) = true) := by simp [hp]
        simp only [mapSet]
        rw [if_pos hany, List.map_cons, if_neg hb, mapGet_cons, if_neg hp]
        have h2 := ih
        simp only [mapSet] at h2
        rw [if_pos hm] at h2
        exact h2
      · have hany : ¬ ((p :: m).any fun q => q.1 == k) = true := by
          simp [List.any_cons, hp, hm]
        simp only [mapSet]
        rw [if_neg hany, List.cons_append, mapGet_cons, if_neg hp]
        have h2 := ih
        simp only [mapSet] at h2
        rw [if_neg hm] at h2
        exact h2

theorem mem_eq_of_map_pairwise {β : Type} {g : WKey × Rec → β} {L : List (WKey × Rec)}
    {x e : WKey × Rec} (h : (L.map g).Pairwise (· ≠ ·)) (hx : x ∈ L) (he : e ∈ L)
    (hg : g x = g e) : x = e := by
  by_contra hne
  have hp : L.Pairwise (fun a b => g a ≠ g b) := List.pairwise_map.mp h
  have hsym : Symmetric (fun a b : WKey × Rec => g a ≠ g b) := fun a b hab hc => hab hc.symm
  exact (hp.forall hsym hx he hne) hg

theorem keyed_map_replace (f : WKey → String) (w : WKey) (v : Rec) (es : Nat) :
    ∀ (L : List (WKey × Rec)), (∀ x ∈ L, (f x.1 = f w ↔ x.2.seq = es)) →
    (keyed f L).map (fun p => if (p.1 == f w) = true then (f w, v) else p) =
      keyed f (L.map fun x => if x.2.seq = es then (w, v) else x) := by
  intro L
  induction L with
  | nil => intro _; rfl
  | cons x L ih =>
    intro hiff
    have hx := hiff x (List.mem_cons_self x L)
    have htail := fun y hy => hiff y (List.mem_cons_of_mem x hy)
    rw [keyed_cons, List.map_cons, List.map_cons, keyed_cons]
    by_cases h : x.2.seq = es
    · have hkey : (f x.1 == f w) = true := by simp [hx.mpr h]
      rw [if_pos hkey, if_pos h, ih htail]
    · have hkey : ¬ ((f x.1 == f w) = true) := by
        simp only [beq_iff_eq]
        exact fun hc => h (hx.mp hc)
      rw [if_neg hkey, if_neg h, ih htail]

theorem mapSet_keyed_replace (f : WKey → String) (L : List (WKey × Rec)) (e : WKey × Rec)
    (v : Rec) (he : e ∈ L)
    (hiff : ∀ x ∈ L, (f x.1 = f e.1 ↔ x.2.seq = e.2.seq)) :
    mapSet (keyed f L) (f e.1) v =
      keyed f (L.map fun x => if x.2.seq = e.2.seq then (e.1, v) else x) := by
  have hany : ((keyed f L).any fun p => p.1 == f e.1) = true := by
    simp only [List.any_eq_true, beq_iff_eq]
    exact ⟨(f e.1, e.2), List.mem_map.mpr ⟨e, he, rfl⟩, rfl⟩
  simp only [mapSet]
  rw [if_pos hany]
  exact keyed_map_replace f e.1 v e.2.seq L hiff

theorem keyed_filter_seq (f : WKey → String) (s : Nat) (L : List (WKey × Rec)) :
    (keyed f L).filter (fun p => p.2.seq != s) = keyed f (L.filter fun e => e.2.seq != s) := by
  induction L with
  | nil => rfl
  | cons x L ih =>
    by_cases h : x.2.seq = s <;>
      simp [keyed_cons, List.filter_cons, h, ih]

theorem mapDelete_keyed (f : WKey → String) (L : List (WKey × Rec)) (k : String) :
    mapDelete (keyed f L) k = keyed f (L.filter fun e => f e.1 != k) := by
  induction L with
  | nil => rfl
  | cons x L ih =>
    by_cases h : f x.1 = k <;>
      simp [mapDelete, keyed_cons, List.filter_cons, h, ih] <;>
      simpa [mapDelete] using ih

theorem filter_seq_eq_self (L : List (WKey × Rec)) (s : Nat) (h : ∀ e ∈ L, e.2.seq ≠ s) :
    (L.filter fun e => e.2.seq != s) = L :=
  List.filter_eq_self.mpr fun e heL => by simpa [bne_iff_ne] using h e heL

theorem sortByAt_eq_self (l : List (String × Rec))
    (h : l.Pairwise fun a b => a.2.at_ ≤ b.2.at_) : sortByAt l = l := by
  induction l with
  | nil => rfl
  | cons x l ih =>
    have hhead := (List.pairwise_cons.mp h).1
    have htail := (List.pairwise_cons.mp h).2
    show sortedInsert x (List.foldr sortedInsert [] l) = x :: l
    rw [show List.foldr sortedInsert [] l = sortByAt l from rfl, ih htail]
    cases l with
    | nil => rfl
    | cons y l2 =>
      simp only [sortedInsert]
      rw [if_pos (hhead y (List.mem_cons_self y l2))]

theorem removeRecEverywhere_cacheOf (ttl nseq : Nat) (L : List (WKey × Rec)) (s : Nat) :
    removeRecEverywhere (cacheOf ttl L nseq) s =
      cacheOf ttl (L.filter fun e => e.2.seq != s) nseq := by
  simp only [removeRecEverywhere, cacheOf, keyed_filter_seq]

theorem evict_fold (ttl nseq : Nat) : ∀ (T R : List (WKey × Rec)),
    ((T ++ R).map fun e => e.2.seq).Pairwise (· ≠ ·) →
    List.foldl (fun acc p => removeRecEverywhere acc p.2.seq)
      (cacheOf ttl (T ++ R) nseq) (keyed strictOf T) = cacheOf ttl R nseq := by
  intro T
  induction T with
  | nil =>
    intro R h
    simp [keyed_nil]
  | cons e T ih =>
    intro R h
    have h' : ((e :: (T ++ R)).map fun x => x.2.seq).Pairwise (· ≠ ·) := by
      simpa using h
    rw [List.map_cons] at h'
    obtain ⟨hhead, htail⟩ := List.pairwise_cons.mp h'
    rw [keyed_cons, List.foldl_cons]
    have hcons : (e :: T) ++ R = e :: (T ++ R) := rfl
    rw [hcons, removeRecEverywhere_cacheOf]
    have hfilter : ((e :: (T ++ R)).filter fun x => x.2.seq != e.2.seq) = T ++ R := by
      rw [List.filter_cons]
      have hfalse : (e.2.seq != e.2.seq) = false := by simp
      rw [hfalse]
      simp only [Bool.false_eq_true, if_false]
      refine filter_seq_eq_self _ _ fun x hx => ?_
      have := hhead x.2.seq (List.mem_map.mpr ⟨x, hx, rfl⟩)
      exact fun hc => this hc.symm
    rw [hfilter]
    exact ih R htail

theorem evictOldest_cacheOf (ttl nseq n : Nat) (L : List (WKey × Rec))
    (hG : GoodList L nseq) :
    (cacheOf ttl L nseq).evictOldest n = cacheOf ttl (L.drop n) nseq := by
  have hsort : sortByAt (keyed strictOf L) = keyed strictOf L := by
    apply sortByAt_eq_self
    have hmono : L.Pairwise fun a b => a.2.at_ ≤ b.2.at_ := List.pairwise_map.mp hG.atMono
    exact List.pairwise_map.mpr hmono
  show List.foldl (fun acc p => removeRecEverywhere acc p.2.seq) (cacheOf ttl L nseq)
    ((sortByAt (cacheOf ttl L nseq).strictMap).take n) = cacheOf ttl (L.drop n) nseq
  rw [show (cacheOf ttl L nseq).strictMap = keyed strictOf L from rfl, hsort, ← keyed_take]
  have h2 := evict_fold ttl nseq (L.take n) (L.drop n)
    (by rw [List.take_append_drop]; exact hG.seqDistinct)
  rw [List.take_append_drop] at h2
  exact h2

theorem totalEntries_cacheOf (ttl nseq : Nat) (L : List (WKey × Rec)) :
    (cacheOf ttl L nseq).totalEntries = 3 * L.length := by
  simp [MessageCache.totalEntries, cacheOf, length_keyed]
  omega

theorem makeKeys_strict (k : WKey) : (makeKeys (some k)).strict = strictOf k := rfl

theorem makeKeys_loose (k : WKey) : (makeKeys (some k)).loose = looseOf k := rfl

theorem makeKeys_idOnly (k : WKey) : (makeKeys (some k)).idOnly = idOf k := rfl

theorem add_cacheOf_fresh_small (ttl nseq now : Nat) (L : List (WKey × Rec)) (k : WKey)
    (cont : Container) (auth : Option String)
    (hsz : ¬ 3 * L.length > MAX_CACHE * 3)
    (hf : ∀ e ∈ L, strictOf e.1 ≠ strictOf k ∧ looseOf e.1 ≠ looseOf k ∧ idOf e.1 ≠ idOf k)
    (hid : idOf k ≠ "") :
    (cacheOf ttl L nseq).add now (some k) cont auth =
      cacheOf ttl (L ++ [(k, ⟨now, nseq, cont, auth⟩)]) (nseq + 1) := by
  have hneg : ¬ ((cacheOf ttl L nseq).totalEntries > MAX_CACHE * 3) := by
    rw [totalEntries_cacheOf]; exact hsz
  simp only [MessageCache.add]
  rw [if_neg hneg]
  rw [show (cacheOf ttl L nseq).strictMap = keyed strictOf L from rfl,
      show (cacheOf ttl L nseq).looseMap = keyed looseOf L from rfl,
      show (cacheOf ttl L nseq).idMap = keyed idOf L from rfl,
      show (cacheOf ttl L nseq).nextSeq = nseq from rfl,
      makeKeys_strict, makeKeys_loose, makeKeys_idOnly, if_pos hid]
  rw [mapSet_keyed_fresh strictOf L (strictOf k) _ fun e he => (hf e he).1,
      mapSet_keyed_fresh looseOf L (looseOf k) _ fun e he => (hf e he).2.1,
      mapSet_keyed_fresh idOf L (idOf k) _ fun e he => (hf e he).2.2]
  simp [cacheOf, keyed_append, keyed_cons, keyed_nil]

theorem add_cacheOf_fresh_evict (ttl nseq now : Nat) (L : List (WKey × Rec)) (k : WKey)
    (cont : Container) (auth : Option String)
    (hG : GoodList L nseq)
    (hsz : 3 * L.length > MAX_CACHE * 3)
    (hf : ∀ e ∈ L.drop EVICT_COUNT,
      strictOf e.1 ≠ strictOf k ∧ looseOf e.1 ≠ looseOf k ∧ idOf e.1 ≠ idOf k)
    (hid : idOf k ≠ "") :
    (cacheOf ttl L nseq).add now (some k) cont auth =
      cacheOf ttl (L.drop EVICT_COUNT ++ [(k, ⟨now, nseq, cont, auth⟩)]) (nseq + 1) := by
  have hpos : (cacheOf ttl L nseq).totalEntries > MAX_CACHE * 3 := by
    rw [totalEntries_cacheOf]; exact hsz
  simp only [MessageCache.add]
  rw [if_pos hpos, evictOldest_cacheOf ttl nseq EVICT_COUNT L hG]
  rw [show (cacheOf ttl (L.drop EVICT_COUNT) nseq).strictMap = keyed strictOf (L.drop EVICT_COUNT) from rfl,
      show (cacheOf ttl (L.drop EVICT_COUNT) nseq).looseMap = keyed looseOf (L.drop EVICT_COUNT) from rfl,
      show (cacheOf ttl (L.drop EVICT_COUNT) nseq).idMap = keyed idOf (L.drop EVICT_COUNT) from rfl,
      show (cacheOf ttl (L.drop EVICT_COUNT) nseq).nextSeq = nseq from rfl,
      makeKeys_strict, makeKeys_loose, makeKeys_idOnly, if_pos hid]
  rw [mapSet_keyed_fresh strictOf _ (strictOf k) _ fun e he => (hf e he).1,
      mapSet_keyed_fresh looseOf _ (looseOf k) _ fun e he => (hf e he).2.1,
      mapSet_keyed_fresh idOf _ (idOf k) _ fun e he => (hf e he).2.2]
  simp [cacheOf, keyed_append, keyed_cons, keyed_nil]

theorem goodList_key_iff_seq (f : WKey → String) (L : List (WKey × Rec)) (e : WKey × Rec)
    (he : e ∈ L) (hkeys : (L.map fun x => f x.1).Pairwise (· ≠ ·))
    (hseqs : (L.map fun x => x.2.seq).Pairwise (· ≠ ·)) :
    ∀ x ∈ L, (f x.1 = f e.1 ↔ x.2.seq = e.2.seq) := by
  intro x hx
  constructor
  · intro hk
    have hxe : x = e := mem_eq_of_map_pairwise (g := fun z => f z.1) hkeys hx he hk
    rw [hxe]
  · intro hs
    have hxe : x = e := mem_eq_of_map_pairwise (g := fun z => z.2.seq) hseqs hx he hs
    rw [hxe]

theorem add_cacheOf_replace (ttl nseq now : Nat) (L : List (WKey × Rec)) (e : WKey × Rec)
    (cont : Container) (auth : Option String)
    (hG : GoodList L nseq) (he : e ∈ L)
    (hsz : ¬ 3 * L.length > MAX_CACHE * 3) :
    (cacheOf ttl L nseq).add now (some e.1) cont auth =
      cacheOf ttl
        (L.map fun x => if x.2.seq = e.2.seq then (e.1, (⟨now, nseq, cont, auth⟩ : Rec)) else x)
        (nseq + 1) := by
  have hneg : ¬ ((cacheOf ttl L nseq).totalEntries > MAX_CACHE * 3) := by
    rw [totalEntries_cacheOf]; exact hsz
  simp only [MessageCache.add]
  rw [if_neg hneg]
  rw [show (cacheOf ttl L nseq).strictMap = keyed strictOf L from rfl,
      show (cacheOf ttl L nseq).looseMap = keyed looseOf L from rfl,
      show (cacheOf ttl L nseq).idMap = keyed idOf L from rfl,
      show (cacheOf ttl L nseq).nextSeq = nseq from rfl,
      makeKeys_strict, makeKeys_loose, makeKeys_idOnly, if_pos (hG.idNonempty e he)]
  rw [mapSet_keyed_replace strictOf L e _ he
        (goodList_key_iff_seq strictOf L e he hG.strictDistinct hG.seqDistinct),
      mapSet_keyed_replace looseOf L e _ he
        (goodList_key_iff_seq looseOf L e he hG.looseDistinct hG.seqDistinct),
      mapSet_keyed_replace idOf L e _ he
        (goodList_key_iff_seq idOf L e he hG.idDistinct hG.seqDistinct)]
  simp [cacheOf]

theorem entriesOf_append (a b : List InsertItem) : ∀ i : Nat,
    entriesOf (a ++ b) i = entriesOf a i ++ entriesOf b (i + a.length) := by
  induction a with
  | nil => intro i; simp [entriesOf]
  | cons it a ih =>
    intro i
    show (it.key, ⟨it.now, i, it.container, it.author⟩) :: entriesOf (a ++ b) (i + 1) =
      ((it.key, ⟨it.now, i, it.container, it.author⟩) :: entriesOf a (i + 1)) ++
        entriesOf b (i + (it :: a).length)
    rw [List.cons_append, ih (i + 1)]
    have h3 : i + 1 + a.length = i + (it :: a).length := by
      simp [List.length_cons]
      omega
    rw [h3]

theorem length_entriesOf (l : List InsertItem) : ∀ i : Nat,
    (entriesOf l i).length = l.length := by
  induction l with
  | nil => intro i; rfl
  | cons it l ih => intro i; simp [entriesOf, ih]

theorem map_seq_entriesOf (l : List InsertItem) : ∀ i : Nat,
    ((entriesOf l i).map fun e => e.2.seq) = List.range' i l.length := by
  induction l with
  | nil => intro i; rfl
  | cons it l ih =>
    intro i
    rw [List.length_cons, List.range'_succ]
    simp only [entriesOf, List.map_cons, ih]

theorem map_at_entriesOf (l : List InsertItem) : ∀ i : Nat,
    ((entriesOf l i).map fun e => e.2.at_) = l.map fun it => it.now := by
  induction l with
  | nil => intro i; rfl
  | cons it l ih => intro i; simp [entriesOf, ih]

theorem map_key_entriesOf (f : WKey → String) (l : List InsertItem) : ∀ i : Nat,
    ((entriesOf l i).map fun e => f e.1) = l.map fun it => f it.key := by
  induction l with
  | nil => intro i; rfl
  | cons it l ih => intro i; simp [entriesOf, ih]

theorem mem_entriesOf (l : List InsertItem) : ∀ (i : Nat) (e : WKey × Rec),
    e ∈ entriesOf l i →
    ∃ it ∈ l, e.1 = it.key ∧ e.2.at_ = it.now ∧ i ≤ e.2.seq ∧ e.2.seq < i + l.length := by
  induction l with
  | nil => intro i e h; cases h
  | cons it l ih =>
    intro i e h
    rcases List.mem_cons.mp h with h | h
    · refine ⟨it, List.mem_cons_self it l, ?_, ?_, ?_, ?_⟩ <;> (rw [h]; try simp [List.length_cons])
    · rcases ih (i + 1) e h with ⟨jt, hjt, h1, h2, h3, h4⟩
      refine ⟨jt, List.mem_cons_of_mem it hjt, h1, h2, by omega, ?_⟩
      simp only [List.length_cons]
      omega

theorem pairwise_split {α : Type} {β : Type} (g : α → β) (R : β → β → Prop)
    (items pre suf : List α) (it : α) (h : items = pre ++ it :: suf)
    (hp : (items.map g).Pairwise R) : ∀ jt ∈ pre, R (g jt) (g it) := by
  subst h
  rw [List.map_append, List.pairwise_append] at hp
  intro jt hjt
  exact hp.2.2 _ (List.mem_map.mpr ⟨jt, hjt, rfl⟩) _
    (List.mem_map.mpr ⟨it, List.mem_cons_self it suf, rfl⟩)

theorem goodList_entriesOf_drop (items pre suf : List InsertItem) (d : Nat)
    (hsplit : items = pre ++ suf)
    (hstrict : (items.map fun it => strictOf it.key).Pairwise (· ≠ ·))
    (hloose : (items.map fun it => looseOf it.key).Pairwise (· ≠ ·))
    (hidk : (items.map fun it => idOf it.key).Pairwise (· ≠ ·))
    (hidne : ∀ it ∈ items, idOf it.key ≠ "")
    (hmono : (items.map fun it => it.now).Pairwise (· ≤ ·)) :
    GoodList ((entriesOf pre 0).drop d) pre.length := by
  have hsubL : List.Sublist ((entriesOf pre 0).drop d) (entriesOf pre 0) :=
    List.drop_sublist d _
  have hkeyPW : ∀ (f : WKey → String),
      (items.map fun it => f it.key).Pairwise (· ≠ ·) →
      (((entriesOf pre 0).drop d).map fun e => f e.1).Pairwise (· ≠ ·) := by
    intro f hf
    have hpre : (pre.map fun it => f it.key).Pairwise (· ≠ ·) := by
      rw [hsplit, List.map_append] at hf
      exact List.Pairwise.sublist (List.sublist_append_left _ _) hf
    have hall : ((entriesOf pre 0).map fun e => f e.1).Pairwise (· ≠ ·) := by
      rw [map_key_entriesOf]
      exact hpre
    exact List.Pairwise.sublist (List.Sublist.map _ hsubL) hall
  constructor
  · exact hkeyPW strictOf hstrict
  · exact hkeyPW looseOf hloose
  · exact hkeyPW idOf hidk
  · intro e he
    rcases mem_entriesOf pre 0 e (List.mem_of_mem_drop he) with ⟨it, hit, hkey, _, _, _⟩
    rw [hkey]
    exact hidne it (by rw [hsplit]; exact List.mem_append.mpr (Or.inl hit))
  · have hall : ((entriesOf pre 0).map fun e => e.2.seq).Pairwise (· ≠ ·) := by
      rw [map_seq_entriesOf]
      exact (List.pairwise_lt_range' 0 pre.length).imp Nat.ne_of_lt
    exact List.Pairwise.sublist (List.Sublist.map _ hsubL) hall
  · intro e he
    rcases mem_entriesOf pre 0 e (List.mem_of_mem_drop he) with ⟨it, hit, _, _, _, hlt⟩
    omega
  · have hpre : (pre.map fun it => it.now).Pairwise (· ≤ ·) := by
      rw [hsplit, List.map_append] at hmono
      exact List.Pairwise.sublist (List.sublist_append_left _ _) hmono
    have hall : ((entriesOf pre 0).map fun e => e.2.at_).Pairwise (· ≤ ·) := by
      rw [map_at_entriesOf]
      exact hpre
    exact List.Pairwise.sublist (List.Sublist.map _ hsubL) hall

set_option maxHeartbeats 1000000 in
theorem fresh_of_split (items pre suf : List InsertItem) (it : InsertItem)
    (h : items = pre ++ it :: suf)
    (hstrict : (items.map fun jt => strictOf jt.key).Pairwise (· ≠ ·))
    (hloose : (items.map fun jt => looseOf jt.key).Pairwise (· ≠ ·))
    (hidk : (items.map fun jt => idOf jt.key).Pairwise (· ≠ ·)) :
    ∀ e ∈ entriesOf pre 0,
      strictOf e.1 ≠ strictOf it.key ∧ looseOf e.1 ≠ looseOf it.key ∧
        idOf e.1 ≠ idOf it.key := by
  intro e he
  rcases mem_entriesOf pre 0 e he with ⟨jt, hjt, hkey, _, _, _⟩
  rw [hkey]
  have h1 := pairwise_split (fun z => strictOf z.key) (· ≠ ·) items pre suf it h hstrict jt hjt
  have h2 := pairwise_split (fun z => looseOf z.key) (· ≠ ·) items pre suf it h hloose jt hjt
  have h3 := pairwise_split (fun z => idOf z.key) (· ≠ ·) items pre suf it h hidk jt hjt
  exact ⟨h1, h2, h3⟩

theorem addAll_rep (ttl : Nat) (items : List InsertItem)
    (hstrict : (items.map fun it => strictOf it.key).Pairwise (· ≠ ·))
    (hloose : (items.map fun it => looseOf it.key).Pairwise (· ≠ ·))
    (hidk : (items.map fun it => idOf it.key).Pairwise (· ≠ ·))
    (hidne : ∀ it ∈ items, idOf it.key ≠ "")
    (hmono : (items.map fun it => it.now).Pairwise (· ≤ ·)) :
    ∀ pre suf, items = pre ++ suf →
      ∃ d, d ≤ pre.length ∧
        addAll ttl pre = cacheOf ttl ((entriesOf pre 0).drop d) pre.length ∧
        pre.length - d ≤ MAX_CACHE + 1 := by
  intro pre
  induction pre using List.reverseRecOn with
  | nil =>
    intro suf h
    exact ⟨0, Nat.le_refl 0, rfl, by simp⟩
  | append_singleton as it ih =>
    intro suf h
    have h' : items = as ++ (it :: suf) := by
      rw [h, List.append_assoc]
      rfl
    rcases ih (it :: suf) h' with ⟨d, hd, hrep, hbound⟩
    have hGood := goodList_entriesOf_drop items as (it :: suf) d h' hstrict hloose hidk hidne hmono
    have hfresh := fresh_of_split items as suf it h' hstrict hloose hidk
    have hfreshD : ∀ e ∈ (entriesOf as 0).drop d,
        strictOf e.1 ≠ strictOf it.key ∧ looseOf e.1 ≠ looseOf it.key ∧
          idOf e.1 ≠ idOf it.key :=
      fun e he => hfresh e (List.mem_of_mem_drop he)
    have hidit : idOf it.key ≠ "" :=
      hidne it (by rw [h']; exact List.mem_append.mpr (Or.inr (List.mem_cons_self it suf)))
    have hfoldl : addAll ttl (as ++ [it]) =
        (addAll ttl as).add it.now (some it.key) it.container it.author := by
      simp [addAll, List.foldl_append]
    have hlenD : ((entriesOf as 0).drop d).length = as.length - d := by
      rw [List.length_drop, length_entriesOf]
    have hEapp : entriesOf (as ++ [it]) 0 =
        entriesOf as 0 ++ [(it.key, ⟨it.now, as.length, it.container, it.author⟩)] := by
      rw [entriesOf_append]
      simp [entriesOf]
    have hlen1 : (as ++ [it]).length = as.length + 1 := by simp
    have hM : MAX_CACHE = 5000 := rfl
    have hE : EVICT_COUNT = 1500 := rfl
    by_cases htrig : 3 * ((entriesOf as 0).drop d).length > MAX_CACHE * 3
    · have hadd := add_cacheOf_fresh_evict ttl as.length it.now ((entriesOf as 0).drop d)
        it.key it.container it.author hGood htrig
        (fun e he => hfreshD e (List.mem_of_mem_drop he)) hidit
      have hge : as.length - d ≥ MAX_CACHE + 1 := by
        rw [hlenD] at htrig
        omega
      refine ⟨d + EVICT_COUNT, ?_, ?_, ?_⟩
      · rw [hlen1]
        omega
      · rw [hfoldl, hrep, hadd, List.drop_drop, hEapp,
          List.drop_append_of_le_length (by rw [length_entriesOf]; omega), hlen1]
      · rw [hlen1]
        omega
    · have hadd := add_cacheOf_fresh_small ttl as.length it.now ((entriesOf as 0).drop d)
        it.key it.container it.author htrig hfreshD hidit
      have hle : as.length - d ≤ MAX_CACHE := by
        rw [hlenD] at htrig
        omega
      refine ⟨d, ?_, ?_, ?_⟩
      · rw [hlen1]
        omega
      · rw [hfoldl, hrep, hadd, hEapp,
          List.drop_append_of_le_length (by rw [length_entriesOf]; exact hd), hlen1]
      · rw [hlen1]
        omega

/-! ### Claim C3 -/

/-- C3: over any sequence of inserts of distinct records (pairwise-distinct
derived keys, truthy ids, nondecreasing timestamps), the summed entry count of
the three indexes never exceeds `3 * MAX_CACHE + 3`; and whenever it exceeds
`3 * MAX_CACHE` at the start of an `add`, that `add` evicts the oldest
`EVICT_COUNT = Math.ceil(0.3 * MAX_CACHE)` records — dropping exactly the
`EVICT_COUNT` oldest entries of every index — and brings the total back under
the `3 * MAX_CACHE` high-water mark within that one call. -/
theorem c3_capacity_eviction (ttl : Nat) (items : List InsertItem)
    (hstrict : (items.map fun it => strictOf it.key).Pairwise (· ≠ ·))
    (hloose : (items.map fun it => looseOf it.key).Pairwise (· ≠ ·))
    (hidk : (items.map fun it => idOf it.key).Pairwise (· ≠ ·))
    (hidne : ∀ it ∈ items, idOf it.key ≠ "")
    (hmono : (items.map fun it => it.now).Pairwise (· ≤ ·)) :
    ∀ pre suf, items = pre ++ suf →
      (addAll ttl pre).totalEntries ≤ 3 * MAX_CACHE + 3 ∧
      ∀ it suf2, suf = it :: suf2 →
        (addAll ttl pre).totalEntries > 3 * MAX_CACHE →
          (addAll ttl (pre ++ [it])).totalEntries < 3 * MAX_CACHE ∧
          ∃ r : Rec, r.at_ = it.now ∧
            (addAll ttl (pre ++ [it])).strictMap =
              (addAll ttl pre).strictMap.drop EVICT_COUNT ++ [(strictOf it.key, r)] ∧
            (addAll ttl (pre ++ [it])).looseMap =
              (addAll ttl pre).looseMap.drop EVICT_COUNT ++ [(looseOf it.key, r)] ∧
            (addAll ttl (pre ++ [it])).idMap =
              (addAll ttl pre).idMap.drop EVICT_COUNT ++ [(idOf it.key, r)] := by
  intro pre suf hsplit
  rcases addAll_rep ttl items hstrict hloose hidk hidne hmono pre suf hsplit with
    ⟨d, hd, hrep, hbound⟩
  have hM : MAX_CACHE = 5000 := rfl
  have hE : EVICT_COUNT = 1500 := rfl
  constructor
  · rw [hrep, totalEntries_cacheOf, List.length_drop, length_entriesOf]
    omega
  · intro it suf2 hsuf hover
    have h' : items = pre ++ it :: suf2 := by rw [hsplit, hsuf]
    have hGood :=
      goodList_entriesOf_drop items pre (it :: suf2) d h' hstrict hloose hidk hidne hmono
    have hfresh := fresh_of_split items pre suf2 it h' hstrict hloose hidk
    have hfreshD : ∀ e ∈ (entriesOf pre 0).drop d,
        strictOf e.1 ≠ strictOf it.key ∧ looseOf e.1 ≠ looseOf it.key ∧
          idOf e.1 ≠ idOf it.key :=
      fun e he => hfresh e (List.mem_of_mem_drop he)
    have hidit : idOf it.key ≠ "" :=
      hidne it (by rw [h']; exact List.mem_append.mpr (Or.inr (List.mem_cons_self it suf2)))
    have htrig : 3 * ((entriesOf pre 0).drop d).length > MAX_CACHE * 3 := by
      rw [hrep, totalEntries_cacheOf] at hover
      omega
    have hadd := add_cacheOf_fresh_evict ttl pre.length it.now ((entriesOf pre 0).drop d)
      it.key it.container it.author hGood htrig
      (fun e he => hfreshD e (List.mem_of_mem_drop he)) hidit
    have hfoldl : addAll ttl (pre ++ [it]) =
        (addAll ttl pre).add it.now (some it.key) it.container it.author := by
      simp [addAll, List.foldl_append]
    have hstep : addAll ttl (pre ++ [it]) =
        cacheOf ttl (((entriesOf pre 0).drop d).drop EVICT_COUNT ++
          [(it.key, ⟨it.now, pre.length, it.container, it.author⟩)]) (pre.length + 1) := by
      rw [hfoldl, hrep, hadd]
    constructor
    · rw [hstep, totalEntries_cacheOf, List.length_append, List.length_drop, List.length_drop,
        length_entriesOf]
      have hgt : 3 * (pre.length - d) > 3 * MAX_CACHE := by
        rw [List.length_drop, length_entriesOf] at htrig
        omega
      simp only [List.length_cons, List.length_nil]
      omega
    · refine ⟨⟨it.now, pre.length, it.container, it.author⟩, rfl, ?_, ?_, ?_⟩ <;>
        rw [hstep, hrep] <;>
        simp only [cacheOf, keyed_append, keyed_drop, keyed_cons, keyed_nil]

/-- Witness for C3 at a concrete two-element insert sequence: the hypotheses
hold by evaluation and the capacity bound follows from the theorem. -/
theorem c3_capacity_eviction_witness :
    ((([⟨0, ⟨some "c", some "m1", some ""⟩, noMsg, none⟩,
        ⟨1, ⟨some "c", some "m2", some ""⟩, noMsg, none⟩] : List InsertItem).map
        fun it => strictOf it.key).Pairwise (· ≠ ·)) ∧
    (addAll 10 [⟨0, ⟨some "c", some "m1", some ""⟩, noMsg, none⟩]).totalEntries ≤
      3 * MAX_CACHE + 3 := by
  constructor
  · decide
  · exact (c3_capacity_eviction 10
      [⟨0, ⟨some "c", some "m1", some ""⟩, noMsg, none⟩,
       ⟨1, ⟨some "c", some "m2", some ""⟩, noMsg, none⟩]
      (by decide) (by decide) (by decide) (by decide) (by decide)
      [⟨0, ⟨some "c", some "m1", some ""⟩, noMsg, none⟩]
      [⟨1, ⟨some "c", some "m2", some ""⟩, noMsg, none⟩] rfl).1

/-! ### Claim C5 -/

theorem countP_keyed_le_one (f : WKey → String) (L : List (WKey × Rec))
    (h : (L.map fun x => f x.1).Pairwise (· ≠ ·)) (k : String) :
    ((keyed f L).countP fun p => p.1 == k) ≤ 1 := by
  induction L with
  | nil => simp [keyed_nil]
  | cons x L ih =>
    rw [List.map_cons, List.pairwise_cons] at h
    rw [keyed_cons, List.countP_cons]
    by_cases hx : f x.1 = k
    · have h0 : ((keyed f L).countP fun p => p.1 == k) = 0 := by
        rw [List.countP_eq_zero]
        intro p hp
        rcases List.mem_map.mp hp with ⟨y, hy, rfl⟩
        have hne : f x.1 ≠ f y.1 := h.1 _ (List.mem_map.mpr ⟨y, hy, rfl⟩)
        simp only [beq_iff_eq]
        exact fun hc => hne (by rw [hx, hc])
      simp [h0, hx]
    · have hb : ¬ (((f x.1, x.2) : String × Rec).1 == k) = true := by
        simp [hx]
      rw [if_neg hb]
      simpa using ih h.2

theorem map_key_replace (f : WKey → String) (v : Rec) (s : Nat) (w : WKey) :
    ∀ L : List (WKey × Rec), (∀ x ∈ L, x.2.seq = s → f x.1 = f w) →
    ((L.map fun x => if x.2.seq = s then (w, v) else x).map fun x => f x.1) =
      L.map fun x => f x.1 := by
  intro L
  induction L with
  | nil => intro _; rfl
  | cons x L ih =>
    intro h
    rw [List.map_cons, List.map_cons, List.map_cons]
    by_cases hx : x.2.seq = s
    · rw [if_pos hx, ih fun y hy => h y (List.mem_cons_of_mem x hy)]
      have := h x (List.mem_cons_self x L) hx
      rw [show f ((w, v) : WKey × Rec).1 = f w from rfl, this]
    · rw [if_neg hx, ih fun y hy => h y (List.mem_cons_of_mem x hy)]

/-- C5 (amended): in a well-formed cache state, at most one record is
reachable under any given strict key; and an `add` that re-uses an existing
record's addressing key — provided the summed entry count does not exceed the
`3 * MAX_CACHE` soft cap, so no eviction fires — replaces the record under
that strict key only, leaving every record under any other strict key
unchanged and still reachable.  (The unqualified claim is false: when the
soft cap is exceeded, the same `add` also evicts the oldest records, see the
counterexample.) -/
theorem c5_strict_replace_amended (ttl nseq now : Nat) (L : List (WKey × Rec))
    (e : WKey × Rec) (cont : Container) (auth : Option String)
    (hG : GoodList L nseq) (he : e ∈ L)
    (hsz : ¬ (cacheOf ttl L nseq).totalEntries > MAX_CACHE * 3) :
    (∀ k : String, ((cacheOf ttl L nseq).strictMap.countP fun p => p.1 == k) ≤ 1) ∧
    (∃ r : Rec, r.at_ = now ∧ r.container = cont ∧
      mapGet ((cacheOf ttl L nseq).add now (some e.1) cont auth).strictMap
        (strictOf e.1) = some r) ∧
    (∀ x ∈ L, strictOf x.1 ≠ strictOf e.1 →
      mapGet ((cacheOf ttl L nseq).add now (some e.1) cont auth).strictMap
        (strictOf x.1) = some x.2) := by
  have hsz' : ¬ 3 * L.length > MAX_CACHE * 3 := by
    rw [totalEntries_cacheOf] at hsz
    exact hsz
  have hrepl := add_cacheOf_replace ttl nseq now L e cont auth hG he hsz'
  have hseqeq : ∀ x ∈ L, x.2.seq = e.2.seq → x = e := fun x hx hs =>
    mem_eq_of_map_pairwise (g := fun z => z.2.seq) hG.seqDistinct hx he hs
  have hstreq : ∀ x ∈ L, strictOf x.1 = strictOf e.1 → x = e := fun x hx hs =>
    mem_eq_of_map_pairwise (g := fun z => strictOf z.1) hG.strictDistinct hx he hs
  refine ⟨fun k => countP_keyed_le_one strictOf L hG.strictDistinct k, ?_, ?_⟩
  · refine ⟨⟨now, nseq, cont, auth⟩, rfl, rfl, ?_⟩
    rw [hrepl]
    show mapGet (keyed strictOf
      (L.map fun x => if x.2.seq = e.2.seq then (e.1, ⟨now, nseq, cont, auth⟩) else x))
      (strictOf e.1) = _
    have hmem : ((e.1, (⟨now, nseq, cont, auth⟩ : Rec)) : WKey × Rec) ∈
        L.map fun x => if x.2.seq = e.2.seq then (e.1, ⟨now, nseq, cont, auth⟩) else x :=
      List.mem_map.mpr ⟨e, he, by rw [if_pos rfl]⟩
    have := mapGet_keyed_eq_some strictOf _ _ hmem ?_
    · exact this
    · intro x' hx'
      rcases List.mem_map.mp hx' with ⟨y, hy, rfl⟩
      by_cases hys : y.2.seq = e.2.seq
      · rw [if_pos hys]
        intro _
        rfl
      · rw [if_neg hys]
        intro hk
        exact absurd (congrArg (fun z => z.2.seq) (hstreq y hy hk)) hys
  · intro x hx hne
    rw [hrepl]
    show mapGet (keyed strictOf
      (L.map fun z => if z.2.seq = e.2.seq then (e.1, ⟨now, nseq, cont, auth⟩) else z))
      (strictOf x.1) = _
    have hxs : ¬ x.2.seq = e.2.seq := fun hs => hne (by rw [hseqeq x hx hs])
    have hmem : x ∈ L.map fun z =>
        if z.2.seq = e.2.seq then (e.1, (⟨now, nseq, cont, auth⟩ : Rec)) else z :=
      List.mem_map.mpr ⟨x, hx, by rw [if_neg hxs]⟩
    have := mapGet_keyed_eq_some strictOf _ x hmem ?_
    · exact this
    · intro y' hy'
      rcases List.mem_map.mp hy' with ⟨y, hy, rfl⟩
      by_cases hys : y.2.seq = e.2.seq
      · rw [if_pos hys]
        intro hk
        exact absurd hk.symm hne
      · rw [if_neg hys]
        intro hk
        exact mem_eq_of_map_pairwise (g := fun z => strictOf z.1) hG.strictDistinct hy hx hk

theorem drop_range' : ∀ (m s n : Nat), (List.range' s n).drop m = List.range' (s + m) (n - m) := by
  intro m
  induction m with
  | zero => intro s n; simp
  | succ m ih =>
    intro s n
    cases n with
    | zero => simp [List.range']
    | succ n =>
      rw [List.range'_succ, List.drop_succ_cons, ih (s + 1) n]
      have h1 : s + 1 + m = s + (m + 1) := by omega
      have h2 : n - m = n + 1 - (m + 1) := by omega
      rw [h1, h2]

theorem length_natId (i : Nat) : (natId i).length = i + 1 := by
  rw [natId, String.length_mk, List.length_replicate]

theorem natId_ne_empty (i : Nat) : natId i ≠ "" := by
  intro h
  have h2 := congrArg String.length h
  rw [length_natId] at h2
  have h0 : ("" : String).length = 0 := rfl
  rw [h0] at h2
  omega

theorem length_strictOf_bigKey (i : Nat) : (strictOf (bigKey i)).length = i + 4 := by
  show ("c" ++ "|" ++ natId i ++ "|" ++ "").length = i + 4
  rw [String.length_append, String.length_append, String.length_append, String.length_append,
    length_natId]
  have h1 : ("c" : String).length = 1 := rfl
  have h2 : ("|" : String).length = 1 := rfl
  have h3 : ("" : String).length = 0 := rfl
  rw [h1, h2, h3]
  omega

theorem length_looseOf_bigKey (i : Nat) : (looseOf (bigKey i)).length = i + 3 := by
  show ("c" ++ "|" ++ natId i).length = i + 3
  rw [String.length_append, String.length_append, length_natId]
  have h1 : ("c" : String).length = 1 := rfl
  have h2 : ("|" : String).length = 1 := rfl
  rw [h1, h2]
  omega

theorem strictOf_bigKey_ne {i j : Nat} (h : i ≠ j) :
    strictOf (bigKey i) ≠ strictOf (bigKey j) := by
  intro hc
  have h2 := congrArg String.length hc
  rw [length_strictOf_bigKey, length_strictOf_bigKey] at h2
  omega

theorem looseOf_bigKey_ne {i j : Nat} (h : i ≠ j) :
    looseOf (bigKey i) ≠ looseOf (bigKey j) := by
  intro hc
  have h2 := congrArg String.length hc
  rw [length_looseOf_bigKey, length_looseOf_bigKey] at h2
  omega

theorem idOf_bigKey_ne {i j : Nat} (h : i ≠ j) : idOf (bigKey i) ≠ idOf (bigKey j) := by
  intro hc
  have h2 := congrArg String.length hc
  have hi : idOf (bigKey i) = natId i := rfl
  have hj : idOf (bigKey j) = natId j := rfl
  rw [hi, hj, length_natId, length_natId] at h2
  omega

theorem goodList_bigL : GoodList bigL (MAX_CACHE + 1) := by
  have hmap : ∀ (f : WKey × Rec → Nat) (g : Nat → Nat), (∀ i, f (bigEntry i) = g i) →
      bigL.map f = (List.range' 0 (MAX_CACHE + 1)).map g := by
    intro f g hfg
    simp only [bigL, List.map_map]
    exact List.map_congr_left fun i _ => hfg i
  constructor
  · have h1 : (bigL.map fun e => strictOf e.1) =
        (List.range' 0 (MAX_CACHE + 1)).map fun i => strictOf (bigKey i) := by
      simp only [bigL, List.map_map]
      rfl
    rw [h1, List.pairwise_map]
    exact (List.pairwise_lt_range' 0 (MAX_CACHE + 1)).imp fun h =>
      strictOf_bigKey_ne (Nat.ne_of_lt h)
  · have h1 : (bigL.map fun e => looseOf e.1) =
        (List.range' 0 (MAX_CACHE + 1)).map fun i => looseOf (bigKey i) := by
      simp only [bigL, List.map_map]
      rfl
    rw [h1, List.pairwise_map]
    exact (List.pairwise_lt_range' 0 (MAX_CACHE + 1)).imp fun h =>
      looseOf_bigKey_ne (Nat.ne_of_lt h)
  · have h1 : (bigL.map fun e => idOf e.1) =
        (List.range' 0 (MAX_CACHE + 1)).map fun i => idOf (bigKey i) := by
      simp only [bigL, List.map_map]
      rfl
    rw [h1, List.pairwise_map]
    exact (List.pairwise_lt_range' 0 (MAX_CACHE + 1)).imp fun h =>
      idOf_bigKey_ne (Nat.ne_of_lt h)
  · intro e he
    rcases List.mem_map.mp he with ⟨i, _, rfl⟩
    exact natId_ne_empty i
  · have h1 : (bigL.map fun e => e.2.seq) = List.range' 0 (MAX_CACHE + 1) := by
      simp only [bigL, List.map_map]
      have : ((fun e : WKey × Rec => e.2.seq) ∘ bigEntry) = fun i => i := rfl
      rw [this, List.map_id']
    rw [h1]
    exact (List.pairwise_lt_range' 0 (MAX_CACHE + 1)).imp Nat.ne_of_lt
  · intro e he
    rcases List.mem_map.mp he with ⟨i, hi, rfl⟩
    rcases List.mem_range'.mp hi with ⟨j, hj, hij⟩
    show i < MAX_CACHE + 1
    omega
  · have h1 : (bigL.map fun e => e.2.at_) = List.range' 0 (MAX_CACHE + 1) := by
      simp only [bigL, List.map_map]
      have : ((fun e : WKey × Rec => e.2.at_) ∘ bigEntry) = fun i => i := rfl
      rw [this, List.map_id']
    rw [h1]
    exact (List.pairwise_lt_range' 0 (MAX_CACHE + 1)).imp Nat.le_of_lt

set_option maxRecDepth 8000 in
/-- C5 counterexample: `bigCache` is a well-formed state holding
`MAX_CACHE + 1` distinct records, so its entry count is over the soft cap.
Re-inserting under the existing strict key of `bigKey 0` — exactly the
replacement insert of the claim — triggers the batch eviction inside `add`,
and the record stored under the unrelated strict key of `bigKey 1`, reachable
before the insert, is no longer reachable after it.  The claim's "leaving
every record stored under any other strict key unchanged and still reachable"
is therefore false at this state. -/
theorem c5_counterexample :
    mapGet bigCache.strictMap (strictOf (bigKey 1)) = some (bigEntry 1).2 ∧
    mapGet ((bigCache.add (MAX_CACHE + 1) (some (bigKey 0)) noMsg none).strictMap)
      (strictOf (bigKey 1)) = none := by
  have hlen : bigL.length = MAX_CACHE + 1 := by simp [bigL]
  have hE : EVICT_COUNT = 1500 := rfl
  constructor
  · show mapGet (keyed strictOf bigL) (strictOf (bigKey 1)) = some (bigEntry 1).2
    have hmem : bigEntry 1 ∈ bigL :=
      List.mem_map.mpr ⟨1, List.mem_range'.mpr ⟨1, by decide, rfl⟩, rfl⟩
    have huniq : ∀ x ∈ bigL, strictOf x.1 = strictOf (bigEntry 1).1 → x = bigEntry 1 := by
      intro x hx hk
      rcases List.mem_map.mp hx with ⟨i, _, rfl⟩
      by_cases hi : i = 1
      · rw [hi]
      · exact absurd hk (strictOf_bigKey_ne hi)
    exact mapGet_keyed_eq_some strictOf bigL (bigEntry 1) hmem huniq
  · have htrig : 3 * bigL.length > MAX_CACHE * 3 := by
      rw [hlen]
      omega
    have hdropEq : bigL.drop EVICT_COUNT =
        (List.range' (0 + EVICT_COUNT) (MAX_CACHE + 1 - EVICT_COUNT)).map bigEntry := by
      rw [bigL, ← List.map_drop, drop_range']
    have hfresh : ∀ e ∈ bigL.drop EVICT_COUNT,
        strictOf e.1 ≠ strictOf (bigKey 0) ∧ looseOf e.1 ≠ looseOf (bigKey 0) ∧
          idOf e.1 ≠ idOf (bigKey 0) := by
      intro e he
      rw [hdropEq] at he
      rcases List.mem_map.mp he with ⟨i, hi, rfl⟩
      rcases List.mem_range'.mp hi with ⟨j, hj, hij⟩
      have hi0 : i ≠ 0 := by omega
      exact ⟨strictOf_bigKey_ne hi0, looseOf_bigKey_ne hi0, idOf_bigKey_ne hi0⟩
    have hadd := add_cacheOf_fresh_evict DEFAULT_TTL_MS (MAX_CACHE + 1) (MAX_CACHE + 1) bigL
      (bigKey 0) noMsg none goodList_bigL htrig hfresh (natId_ne_empty 0)
    rw [show bigCache = cacheOf DEFAULT_TTL_MS bigL (MAX_CACHE + 1) from rfl, hadd]
    show mapGet (keyed strictOf (bigL.drop EVICT_COUNT ++
      [(bigKey 0, ⟨MAX_CACHE + 1, MAX_CACHE + 1, noMsg, none⟩)])) (strictOf (bigKey 1)) = none
    apply mapGet_keyed_eq_none
    intro e he
    rcases List.mem_append.mp he with h | h
    · rw [hdropEq] at h
      rcases List.mem_map.mp h with ⟨i, hi, rfl⟩
      rcases List.mem_range'.mp hi with ⟨j, hj, hij⟩
      have hi1 : i ≠ 1 := by omega
      exact strictOf_bigKey_ne hi1
    · rw [List.mem_singleton.mp h]
      exact strictOf_bigKey_ne (by decide)

/-- Witness for the amended C5 at a one-record state: the well-formedness
hypotheses hold by evaluation and the at-most-one-record-per-strict-key bound
follows from the theorem. -/
theorem c5_strict_replace_amended_witness :
    GoodList [(⟨some "c", some "m", some "p"⟩, ⟨0, 0, noMsg, none⟩)] 1 ∧
    (∀ k : String,
      ((cacheOf 10 [(⟨some "c", some "m", some "p"⟩, ⟨0, 0, noMsg, none⟩)] 1).strictMap.countP
        fun p => p.1 == k) ≤ 1) := by
  have hG : GoodList [(⟨some "c", some "m", some "p"⟩, ⟨0, 0, noMsg, none⟩)] 1 :=
    ⟨by simp, by simp, by simp, by decide, by simp, by decide, by simp⟩
  refine ⟨hG, ?_⟩
  exact (c5_strict_replace_amended 10 1 5 _ (⟨some "c", some "m", some "p"⟩, ⟨0, 0, noMsg, none⟩)
    noMsg none hG (List.mem_singleton.mpr rfl) (by decide)).1

/-! ### Lookup evaluation lemmas -/

theorem getByRevokedKey_strict_some (c : MessageCache) (now : Nat) (key : Option WKey) (r : Rec)
    (h : mapGet c.strictMap (makeKeys key).strict = some r)
    (hexp : ¬ now - r.at_ > c.ttlMs) :
    c.getByRevokedKey now key = (some r, c) := by
  simp only [MessageCache.getByRevokedKey]
  rw [h]
  simp [hexp]

theorem getByRevokedKey_loose_some (c : MessageCache) (now : Nat) (key : Option WKey) (r : Rec)
    (h1 : mapGet c.strictMap (makeKeys key).strict = none)
    (h2 : mapGet c.looseMap (makeKeys key).loose = some r)
    (hexp : ¬ now - r.at_ > c.ttlMs) :
    c.getByRevokedKey now key = (some r, c) := by
  simp only [MessageCache.getByRevokedKey]
  rw [h1, h2]
  simp [hexp]

theorem getByRevokedKey_strict_expired (c : MessageCache) (now : Nat) (key : Option WKey)
    (r : Rec) (h : mapGet c.strictMap (makeKeys key).strict = some r)
    (hexp : now - r.at_ > c.ttlMs) :
    c.getByRevokedKey now key =
      (none,
        { c with
          strictMap := mapDelete c.strictMap (makeKeys key).strict
          looseMap := mapDelete c.looseMap (makeKeys key).loose
          idMap := if (makeKeys key).idOnly ≠ "" then mapDelete c.idMap (makeKeys key).idOnly
            else c.idMap }) := by
  simp only [MessageCache.getByRevokedKey]
  rw [h]
  simp [hexp]

theorem getByRevokedKey_miss (c : MessageCache) (now : Nat) (key : Option WKey)
    (h1 : mapGet c.strictMap (makeKeys key).strict = none)
    (h2 : mapGet c.looseMap (makeKeys key).loose = none)
    (h3 : (if (makeKeys key).idOnly ≠ "" then mapGet c.idMap (makeKeys key).idOnly else none) =
      none) :
    c.getByRevokedKey now key = (none, c) := by
  simp only [MessageCache.getByRevokedKey]
  rw [h1, h2, h3]

/-! ### Claim C4 -/

/-- C4: in a well-formed cache state, for a non-expired record stored under
identity `(chatId, messageId, participantId)`, a lookup whose identity carries
the same chat and message id but an arbitrary wrong or absent participant —
assuming the fabricated strict key does not collide with a different record's
strict key, which cannot happen for real ids free of the `|` separator — hits
through the strict-then-loose fallback chain of `getByRevokedKey` and returns
exactly the record that the strict-identity lookup returns. -/
theorem c4_loose_fallback (ttl nseq now : Nat) (L : List (WKey × Rec)) (e : WKey × Rec)
    (p : Option String) (hG : GoodList L nseq) (he : e ∈ L)
    (hnocol : ∀ x ∈ L, strictOf x.1 = strictOf ⟨e.1.remoteJid, e.1.id, p⟩ → x = e)
    (hexp : ¬ now - e.2.at_ > ttl) :
    ((cacheOf ttl L nseq).getByRevokedKey now
      (some ⟨e.1.remoteJid, e.1.id, p⟩)).1 = some e.2 ∧
    ((cacheOf ttl L nseq).getByRevokedKey now (some e.1)).1 = some e.2 := by
  have huniqS : ∀ x ∈ L, strictOf x.1 = strictOf e.1 → x = e := fun x hx h =>
    mem_eq_of_map_pairwise (g := fun z => strictOf z.1) hG.strictDistinct hx he h
  have huniqL : ∀ x ∈ L, looseOf x.1 = looseOf e.1 → x = e := fun x hx h =>
    mem_eq_of_map_pairwise (g := fun z => looseOf z.1) hG.looseDistinct hx he h
  constructor
  · by_cases hs : ∃ x ∈ L, strictOf x.1 = strictOf (⟨e.1.remoteJid, e.1.id, p⟩ : WKey)
    · rcases hs with ⟨x, hx, hxk⟩
      have hxe : x = e := hnocol x hx hxk
      have hget : mapGet (keyed strictOf L)
          (strictOf (⟨e.1.remoteJid, e.1.id, p⟩ : WKey)) = some e.2 := by
        rw [← hxk, hxe]
        exact mapGet_keyed_eq_some strictOf L e he huniqS
      rw [getByRevokedKey_strict_some (cacheOf ttl L nseq) now
        (some ⟨e.1.remoteJid, e.1.id, p⟩) e.2 hget hexp]
    · push_neg at hs
      have hnone : mapGet (keyed strictOf L)
          (strictOf (⟨e.1.remoteJid, e.1.id, p⟩ : WKey)) = none :=
        mapGet_keyed_eq_none strictOf L _ fun x hx => hs x hx
      have hloose : mapGet (keyed looseOf L)
          (looseOf (⟨e.1.remoteJid, e.1.id, p⟩ : WKey)) = some e.2 := by
        have hlq : looseOf (⟨e.1.remoteJid, e.1.id, p⟩ : WKey) = looseOf e.1 := rfl
        rw [hlq]
        exact mapGet_keyed_eq_some looseOf L e he huniqL
      rw [getByRevokedKey_loose_some (cacheOf ttl L nseq) now
        (some ⟨e.1.remoteJid, e.1.id, p⟩) e.2 hnone hloose hexp]
  · have hget : mapGet (keyed strictOf L) (strictOf e.1) = some e.2 :=
      mapGet_keyed_eq_some strictOf L e he huniqS
    rw [getByRevokedKey_strict_some (cacheOf ttl L nseq) now (some e.1) e.2 hget hexp]

/-- Witness for C4 at a one-record state with a fabricated participant: the
hypotheses hold by evaluation and the loose-key lookup returns the stored
record. -/
theorem c4_loose_fallback_witness :
    (¬ (5 : Nat) - 0 > 10) ∧
    ((cacheOf 10 [(⟨some "c", some "m", some "p"⟩, ⟨0, 0, noMsg, none⟩)] 1).getByRevokedKey 5
      (some ⟨some "c", some "m", some "x"⟩)).1 = some (⟨0, 0, noMsg, none⟩ : Rec) := by
  have hG : GoodList [(⟨some "c", some "m", some "p"⟩, ⟨0, 0, noMsg, none⟩)] 1 :=
    ⟨by simp, by simp, by simp, by decide, by simp, by decide, by simp⟩
  refine ⟨by decide, ?_⟩
  exact (c4_loose_fallback 10 1 5 _ (⟨some "c", some "m", some "p"⟩, ⟨0, 0, noMsg, none⟩)
    (some "x") hG (List.mem_singleton.mpr rfl)
    (fun x hx _ => List.mem_singleton.mp hx) (by decide)).1

/-! ### Claim C1 -/

/-- C1 (amended): in a well-formed cache state, when a record's age exceeds
the TTL at lookup time, `getByRevokedKey` returns a miss; and when the lookup
identity is the record's own insertion identity, the expired record is purged
from all three index maps, so it is no longer reachable through any of them.
(The unqualified claim — purge-on-any-reaching-key — is false: the purge
deletes the keys derived from the lookup identity, so a loose-matching lookup
with a different participant leaves the record in the strict index, see the
counterexample.) -/
theorem c1_ttl_purge_amended (ttl nseq now : Nat) (L : List (WKey × Rec)) (e : WKey × Rec)
    (hG : GoodList L nseq) (he : e ∈ L) (hexp : now - e.2.at_ > ttl) :
    ((cacheOf ttl L nseq).getByRevokedKey now (some e.1)).1 = none ∧
    (∀ q ∈ (((cacheOf ttl L nseq).getByRevokedKey now (some e.1)).2).strictMap, q.2 ≠ e.2) ∧
    (∀ q ∈ (((cacheOf ttl L nseq).getByRevokedKey now (some e.1)).2).looseMap, q.2 ≠ e.2) ∧
    (∀ q ∈ (((cacheOf ttl L nseq).getByRevokedKey now (some e.1)).2).idMap, q.2 ≠ e.2) := by
  have huniqS : ∀ x ∈ L, strictOf x.1 = strictOf e.1 → x = e := fun x hx h =>
    mem_eq_of_map_pairwise (g := fun z => strictOf z.1) hG.strictDistinct hx he h
  have hseq : ∀ x ∈ L, x.2 = e.2 → x = e := fun x hx h =>
    mem_eq_of_map_pairwise (g := fun z => z.2.seq) hG.seqDistinct hx he
      (by show x.2.seq = e.2.seq; rw [h])
  have hget : mapGet (keyed strictOf L) (strictOf e.1) = some e.2 :=
    mapGet_keyed_eq_some strictOf L e he huniqS
  have hdel := getByRevokedKey_strict_expired (cacheOf ttl L nseq) now (some e.1) e.2 hget hexp
  rw [hdel]
  refine ⟨rfl, ?_, ?_, ?_⟩
  · show ∀ q ∈ mapDelete (keyed strictOf L) (strictOf e.1), q.2 ≠ e.2
    rw [mapDelete_keyed]
    intro q hq
    rcases List.mem_map.mp hq with ⟨y, hy, rfl⟩
    have hy2 := List.mem_filter.mp hy
    intro hc
    have hye : y = e := hseq y hy2.1 hc
    have := hy2.2
    rw [hye] at this
    simp at this
  · show ∀ q ∈ mapDelete (keyed looseOf L) (looseOf e.1), q.2 ≠ e.2
    rw [mapDelete_keyed]
    intro q hq
    rcases List.mem_map.mp hq with ⟨y, hy, rfl⟩
    have hy2 := List.mem_filter.mp hy
    intro hc
    have hye : y = e := hseq y hy2.1 hc
    have := hy2.2
    rw [hye] at this
    simp at this
  · show ∀ q ∈ (if idOf e.1 ≠ "" then mapDelete (keyed idOf L) (idOf e.1)
      else keyed idOf L), q.2 ≠ e.2
    rw [if_pos (hG.idNonempty e he), mapDelete_keyed]
    intro q hq
    rcases List.mem_map.mp hq with ⟨y, hy, rfl⟩
    have hy2 := List.mem_filter.mp hy
    intro hc
    have hye : y = e := hseq y hy2.1 hc
    have := hy2.2
    rw [hye] at this
    simp at this

/-- Witness for the amended C1 at a one-record state looked up with its exact
insertion identity after expiry: the lookup misses and the strict index no
longer holds the record. -/
theorem c1_ttl_purge_amended_witness :
    ((20 : Nat) - 0 > 10) ∧
    ((cacheOf 10 [(⟨some "c", some "m", some "p"⟩, ⟨0, 0, noMsg, none⟩)] 1).getByRevokedKey 20
      (some ⟨some "c", some "m", some "p"⟩)).1 = none := by
  have hG : GoodList [(⟨some "c", some "m", some "p"⟩, ⟨0, 0, noMsg, none⟩)] 1 :=
    ⟨by simp, by simp, by simp, by decide, by simp, by decide, by simp⟩
  refine ⟨by decide, ?_⟩
  exact (c1_ttl_purge_amended 10 1 20 _ (⟨some "c", some "m", some "p"⟩, ⟨0, 0, noMsg, none⟩)
    hG (List.mem_singleton.mpr rfl) (by decide)).1

/-- C1 counterexample: insert one record under participant `"p"` with TTL 10
at time 0, then look it up at time 20 with the same chat and message id but an
empty participant.  The lookup reaches the record through the loose key and
returns a miss (expired), but the purge deletes only the lookup-derived keys:
the record is still reachable through the strict index afterward, refuting
"the record is no longer reachable through any of the three index maps". -/
theorem c1_counterexample :
    (((emptyCache 10).add 0 (some ⟨some "c", some "m", some "p"⟩) noMsg none).getByRevokedKey 20
      (some ⟨some "c", some "m", some ""⟩)).1 = none ∧
    mapGet ((((emptyCache 10).add 0 (some ⟨some "c", some "m", some "p"⟩) noMsg
        none).getByRevokedKey 20 (some ⟨some "c", some "m", some ""⟩)).2).strictMap "c|m|p" =
      some (⟨0, 0, noMsg, none⟩ : Rec) := by
  exact ⟨rfl, rfl⟩

/-! ### Claim C2 -/

theorem resolveNode_nestE :
    ∀ n : Nat, resolveNode (nestE n) = (some (convMsg "hi"), some "conversation") := by
  intro n
  induction n with
  | zero => rfl
  | succ n ih =>
    show resolveNode (.mk (some (some (nestE n))) none none none none none none none none
      none none none none none) = (some (convMsg "hi"), some "conversation")
    rw [show resolveNode (Message.mk (some (some (nestE n))) none none none none none none
      none none none none none none none) = resolveNode (nestE n) from by
        simp [resolveNode]]
    exact ih

/-- C2 (amended): `resolveContentNode` recurses through the wrapper kinds
until a non-wrapper node is found, and on the tree-shaped envelopes of this
model it terminates for every input (the definition is accepted by structural
recursion).  But the source imposes no recursion-depth bound at all: for every
nesting depth `n`, an envelope of `n` stacked ephemeral wrappers is fully
unwrapped to its inner conversation node — it is never treated as unsupported,
so the spec's "small fixed recursion depth bound" does not exist in the code
(and a truly cyclic payload, not representable as a tree, would make the
source loop). -/
theorem c2_resolve_unbounded :
    ∀ n : Nat, resolveContentNode (some (nestE n)) =
      (some (convMsg "hi"), some "conversation") := by
  intro n
  show resolveNode (nestE n) = (some (convMsg "hi"), some "conversation")
  exact resolveNode_nestE n

/-- C2 counterexample: at nesting depth 100 — beyond any "small fixed
recursion depth bound" — resolution still returns the inner conversation node
and `extractText` recovers its text, rather than treating the payload as
unsupported. -/
theorem c2_counterexample :
    (resolveContentNode (some (nestE 100))).1 = some (convMsg "hi") ∧
    extractText (some (nestE 100)) = "hi" := by
  have h : resolveNode (nestE 100) = (some (convMsg "hi"), some "conversation") :=
    resolveNode_nestE 100
  constructor
  · show (resolveNode (nestE 100)).1 = some (convMsg "hi")
    rw [h]
  · show extractText (some (nestE 100)) = "hi"
    simp only [extractText, resolveContentNode, h]
    simp [convMsg, jsOr]

/-! ### Dispatcher claims -/

theorem getByRevokedKey_after_add (c : MessageCache) (now : Nat) (key : Option WKey)
    (cont : Container) (auth : Option String) :
    ∃ r : Rec, r.container = cont ∧ r.at_ = now ∧
      (c.add now key cont auth).getByRevokedKey now key =
        (some r, c.add now key cont auth) := by
  refine ⟨⟨now, (if c.totalEntries > MAX_CACHE * 3 then c.evictOldest EVICT_COUNT
    else c).nextSeq, cont, auth⟩, rfl, rfl, ?_⟩
  apply getByRevokedKey_strict_some
  · show mapGet ((c.add now key cont auth).strictMap) (makeKeys key).strict = _
    simp only [MessageCache.add]
    exact mapGet_mapSet_self _ _ _
  · simp

/-- C10: when the revoked key carries no chat id (`remoteJid` absent or
empty), `handleRevoke` returns immediately with the state unchanged and emits
no outbound send at all — not even a could-not-restore notice — for every
state, in particular when the feature is enabled and a matching record sits in
the cache. -/
theorem c10_missing_chat_no_send (env : Env) (st : ADState) (now : Nat) (rk : WKey)
    (revokerJid : Option String)
    (h : rk.remoteJid = none ∨ rk.remoteJid = some "") :
    handleRevoke env st now (some rk) revokerJid = (st, []) := by
  cases hen : st.enabled with
  | false => simp [handleRevoke, hen]
  | true =>
    have hchat : jsOr rk.remoteJid none = none := by
      rcases h with h | h <;> simp [jsOr, h]
    simp [handleRevoke, hen, hchat]

/-- Witness for C10: the feature is enabled and the cache holds a record whose
message id even matches the notice's id-only key, yet the chat-less notice
produces no send and no state change. -/
theorem c10_missing_chat_no_send_witness :
    ((⟨none, some "m", none⟩ : WKey).remoteJid = none ∨
      (⟨none, some "m", none⟩ : WKey).remoteJid = some "") ∧
    handleRevoke ⟨fun _ _ => .ok (), fun _ _ => .ok (), fun _ => .ok [], "t", none⟩
      ⟨true, none, (emptyCache 10).add 0 (some ⟨some "c", some "m", none⟩) noMsg none⟩ 0
      (some ⟨none, some "m", none⟩) none =
      (⟨true, none, (emptyCache 10).add 0 (some ⟨some "c", some "m", none⟩) noMsg none⟩, []) := by
  refine ⟨Or.inl rfl, ?_⟩
  exact c10_missing_chat_no_send _ _ 0 _ none (Or.inl rfl)

/-- C8: on a cache miss for a notice that does carry a chat id, `handleRevoke`
emits exactly one outbound send — the notice header followed by the explicit
could-not-restore marker — and terminates without retrying; the embedding is a
total function, so nothing is raised to the caller. -/
theorem c8_miss_single_send (env : Env) (st : ADState) (now : Nat) (rk : WKey)
    (revokerJid : Option String) (chatId : String)
    (hen : st.enabled = true) (hchat : jsOr rk.remoteJid none = some chatId)
    (hmiss : (st.cache.getByRevokedKey now (some rk)).1 = none) :
    ∃ tj notice : String,
      (handleRevoke env st now (some rk) revokerJid).2 =
        [⟨tj, .text (notice ++ "\n(Couldn't restore content)")⟩] := by
  simp only [handleRevoke, hen, hchat, hmiss]
  exact ⟨_, _, rfl⟩

/-- Witness for C8: an enabled state with an empty cache and a well-formed
notice key produces the single could-not-restore send. -/
theorem c8_miss_single_send_witness :
    (jsOr (⟨some "c", some "m", none⟩ : WKey).remoteJid none = some "c") ∧
    (∃ tj notice : String,
      (handleRevoke ⟨fun _ _ => .ok (), fun _ _ => .ok (), fun _ => .ok [], "t", none⟩
        ⟨true, none, emptyCache 10⟩ 0 (some ⟨some "c", some "m", none⟩) none).2 =
        [⟨tj, .text (notice ++ "\n(Couldn't restore content)")⟩]) := by
  refine ⟨rfl, ?_⟩
  exact c8_miss_single_send _ ⟨true, none, emptyCache 10⟩ 0 _ none "c" rfl rfl rfl

/-- C7: for a cached text-only record (no media kind, non-empty extracted
text) looked up successfully on revocation, the single recovery send is the
notice header plus exactly the cached text, byte for byte, as the suffix of
the sent string. -/
theorem c7_text_roundtrip (env : Env) (st : ADState) (now : Nat) (rk : WKey)
    (revokerJid : Option String) (chatId : String) (r : Rec)
    (hen : st.enabled = true) (hchat : jsOr rk.remoteJid none = some chatId)
    (hhit : (st.cache.getByRevokedKey now (some rk)).1 = some r)
    (hkind : detectMediaKind r.container.message = none)
    (htext : extractText r.container.message ≠ "") :
    ∃ tj notice : String,
      (handleRevoke env st now (some rk) revokerJid).2 =
        [⟨tj, .text (notice ++ "\n\n" ++ extractText r.container.message)⟩] := by
  simp only [handleRevoke, hen, hchat, hhit, hkind]
  rw [if_neg htext]
  exact ⟨_, _, rfl⟩

/-- Witness for C7: a cached conversation message with body `"hello"` revoked
before expiry produces a send whose text ends in exactly `"hello"`. -/
theorem c7_text_roundtrip_witness :
    (detectMediaKind (some (convMsg "hello")) = none ∧
      extractText (some (convMsg "hello")) ≠ "") ∧
    (∃ tj notice : String,
      (handleRevoke ⟨fun _ _ => .ok (), fun _ _ => .ok (), fun _ => .ok [], "t", none⟩
        ⟨true, none, (emptyCache 10).add 0 (some ⟨some "c", some "m", none⟩)
          ⟨some ⟨some "c", some "m", none⟩, some (convMsg "hello")⟩ none⟩ 0
        (some ⟨some "c", some "m", none⟩) none).2 =
        [⟨tj, .text (notice ++ "\n\n" ++
          extractText (⟨0, 0, ⟨some ⟨some "c", some "m", none⟩, some (convMsg "hello")⟩,
            none⟩ : Rec).container.message)⟩]) := by
  refine ⟨⟨rfl, by decide⟩, ?_⟩
  exact c7_text_roundtrip _
    ⟨true, none, (emptyCache 10).add 0 (some ⟨some "c", some "m", none⟩)
      ⟨some ⟨some "c", some "m", none⟩, some (convMsg "hello")⟩ none⟩ 0
    ⟨some "c", some "m", none⟩ none "c"
    (⟨0, 0, ⟨some ⟨some "c", some "m", none⟩, some (convMsg "hello")⟩, none⟩ : Rec)
    rfl rfl rfl rfl (by decide)

/-- C9: for a revoked cached media record whose re-download throws, the
recovery path emits exactly one send — the notice header plus the explicit
media-could-not-be-restored marker — and no media content at all; and every
outbound send is wrapped by `safeSend`, whose attempt log shows the primary
attempt alone on success, the primary attempt followed by exactly one bare
fallback on failure, and whose return type carries no exception — remaining
failures are swallowed. -/
theorem c9_media_failure_single_send (env : Env) (st : ADState) (now : Nat) (rk : WKey)
    (revokerJid : Option String) (chatId : String) (r : Rec) (k : MediaKind) (msg : String)
    (hen : st.enabled = true) (hchat : jsOr rk.remoteJid none = some chatId)
    (hhit : (st.cache.getByRevokedKey now (some rk)).1 = some r)
    (hkind : detectMediaKind r.container.message = some k)
    (hdl : env.download r.container = .error msg) :
    (∃ tj notice : String,
      (handleRevoke env st now (some rk) revokerJid).2 =
        [⟨tj, .text (notice ++ "\n(Media could not be restored)")⟩]) ∧
    (∀ s ∈ (handleRevoke env st now (some rk) revokerJid).2, s.content.isMedia = false) ∧
    (∀ (ch bare : SendFn) (jid : String) (content : OutContent),
      (safeSend ch bare jid content).length ≤ 2 ∧
      (∀ a ∈ safeSend ch bare jid content, a.content = content ∧ a.jid = jid) ∧
      (∀ u : Unit, ch jid content = .ok u →
        safeSend ch bare jid content = [⟨.primary, jid, content⟩]) ∧
      (∀ e2 : String, ch jid content = .error e2 →
        safeSend ch bare jid content =
          [⟨.primary, jid, content⟩, ⟨.bare, jid, content⟩])) := by
  have hsends : ∃ tj notice : String,
      (handleRevoke env st now (some rk) revokerJid).2 =
        [⟨tj, .text (notice ++ "\n(Media could not be restored)")⟩] := by
    simp only [handleRevoke, hen, hchat, hhit, hkind, hdl]
    exact ⟨_, _, rfl⟩
  refine ⟨hsends, ?_, ?_⟩
  · rcases hsends with ⟨tj, notice, hs⟩
    rw [hs]
    intro s hsmem
    rw [List.mem_singleton.mp hsmem]
    rfl
  · intro ch bare jid content
    refine ⟨?_, ?_, ?_, ?_⟩
    · simp only [safeSend]
      cases ch jid content with
      | ok u => simp
      | error e2 => cases bare jid content <;> simp
    · intro a ha
      simp only [safeSend] at ha
      cases hch : ch jid content with
      | ok u =>
        rw [hch] at ha
        simp at ha
        rw [ha]
        exact ⟨rfl, rfl⟩
      | error e2 =>
        rw [hch] at ha
        cases hb : bare jid content <;> rw [hb] at ha <;>
          rcases List.mem_cons.mp ha with h | h <;>
          first
          | (rw [h]; exact ⟨rfl, rfl⟩)
          | (rw [List.mem_singleton.mp h]; exact ⟨rfl, rfl⟩)
    · intro u hch
      simp [safeSend, hch]
    · intro e2 hch
      simp only [safeSend, hch]
      cases bare jid content <;> rfl

/-- Witness for C9: an enabled state caching an image message whose download
primitive throws produces the single media-could-not-be-restored text send. -/
theorem c9_media_failure_single_send_witness :
    (detectMediaKind (some (imgMsg "pic")) = some MediaKind.image) ∧
    (∃ tj notice : String,
      (handleRevoke ⟨fun _ _ => .ok (), fun _ _ => .ok (), fun _ => .error "boom", "t", none⟩
        ⟨true, none, (emptyCache 10).add 0 (some ⟨some "c", some "m", none⟩)
          ⟨some ⟨some "c", some "m", none⟩, some (imgMsg "pic")⟩ none⟩ 0
        (some ⟨some "c", some "m", none⟩) none).2 =
        [⟨tj, .text (notice ++ "\n(Media could not be restored)")⟩]) := by
  refine ⟨rfl, ?_⟩
  exact (c9_media_failure_single_send _
    ⟨true, none, (emptyCache 10).add 0 (some ⟨some "c", some "m", none⟩)
      ⟨some ⟨some "c", some "m", none⟩, some (imgMsg "pic")⟩ none⟩ 0
    ⟨some "c", some "m", none⟩ none "c"
    (⟨0, 0, ⟨some ⟨some "c", some "m", none⟩, some (imgMsg "pic")⟩, none⟩ : Rec)
    MediaKind.image "boom" rfl rfl rfl rfl rfl).1

/-! ### Claim C6 -/

/-- C6: while the feature flag is disabled, processing an observed
non-revocation message performs no insert and no send; `disable`/`enable`
touch only the flag and never flush or modify the cache; lookups read the
cache identically whatever the flag; and once re-enabled, processing a
message inserts it and the inserted record is immediately reachable by its
key. -/
theorem c6_disable_frame (env : Env) (st : ADState) (now : Nat) (m : Container)
    (hdis : st.enabled = false) (hnorev : isRevoke m = false)
    (hmsg : m.message.isSome = true) :
    onUpsertOne env st now m = (st, []) ∧
    (∀ s : ADState, s.disable.cache = s.cache ∧ s.enable.cache = s.cache) ∧
    (∀ (s : ADState) (k : Option WKey) (t : Nat),
      s.disable.cache.getByRevokedKey t k = s.cache.getByRevokedKey t k ∧
      s.enable.cache.getByRevokedKey t k = s.cache.getByRevokedKey t k) ∧
    (∃ r : Rec, r.container = m ∧
      (onUpsertOne env st.enable now m).1.cache.getByRevokedKey now m.key =
        (some r, (onUpsertOne env st.enable now m).1.cache)) := by
  obtain ⟨msg, hm⟩ := Option.isSome_iff_exists.mp hmsg
  have hen : (st.enable).enabled = true := rfl
  have hcond : ∀ pm : ProtoMsg, msg.protocolMessage = some pm →
      (pm.type == some 0 && pm.key.isSome) = false := by
    intro pm hpm
    rw [show isRevoke m = (pm.type == some 0 && pm.key.isSome) from by
      simp [isRevoke, hm, hpm]] at hnorev
    exact hnorev
  refine ⟨?_, fun s => ⟨rfl, rfl⟩, fun s k t => ⟨rfl, rfl⟩, ?_⟩
  · cases hpm : msg.protocolMessage with
    | none => simp [onUpsertOne, hm, hpm, hdis]
    | some pm => simp [onUpsertOne, hm, hpm, hcond pm hpm, hdis]
  · have hred : onUpsertOne env st.enable now m =
        ({ st.enable with cache := st.enable.cache.add now m.key m (jsOr (m.key.bind (·.participant)) (m.key.bind (·.remoteJid))) }, []) := by
      cases hpm : msg.protocolMessage with
      | none => simp [onUpsertOne, hm, hpm, hen]
      | some pm => simp [onUpsertOne, hm, hpm, hcond pm hpm, hen]
    rcases getByRevokedKey_after_add st.enable.cache now m.key m
      (jsOr (m.key.bind (·.participant)) (m.key.bind (·.remoteJid))) with ⟨r, hr1, _, hr3⟩
    refine ⟨r, hr1, ?_⟩
    rw [hred]
    exact hr3

/-- Witness for C6: a disabled state with an empty cache leaves a plain
conversation message uncached and sends nothing. -/
theorem c6_disable_frame_witness :
    ((⟨false, none, emptyCache 10⟩ : ADState).enabled = false ∧
      isRevoke ⟨some ⟨some "c", some "m", none⟩, some (convMsg "hi")⟩ = false) ∧
    onUpsertOne ⟨fun _ _ => .ok (), fun _ _ => .ok (), fun _ => .ok [], "t", none⟩
      ⟨false, none, emptyCache 10⟩ 0 ⟨some ⟨some "c", some "m", none⟩, some (convMsg "hi")⟩ =
      (⟨false, none, emptyCache 10⟩, []) := by
  refine ⟨⟨rfl, rfl⟩, ?_⟩
  exact (c6_disable_frame _ ⟨false, none, emptyCache 10⟩ 0
    ⟨some ⟨some "c", some "m", none⟩, some (convMsg "hi")⟩ rfl rfl rfl).1

end AntiDelete
